import Mathlib

/-!
Open-addressing hash table (htable.c, with `next_prime` of asgn1.c): embedding and
verification.

The table of `htable.c` is embedded as a record of its six fields.  Conventions:

* A C string is the list of its `char` values before the terminating NUL; `strcmp(a, b) == 0`
  is equality of the two lists.
* The three arrays are maps from index to cell.  The allocated block is the indices below
  `capacity`; `htable_new` initialises exactly those cells (the model starts every cell at the
  same value).  No cell at an index `>= capacity` is ever read or written: a store there is
  out of bounds and ends the call with a `Fault`.
* `unsigned int` is a natural number reduced modulo `2^32` where the code can wrap (the string
  hash).  Every `int` of the program holds a non-negative value on every run that starts from
  `htable_new`; they are natural numbers here, without a bound (a counter needs `2^31` calls to
  overflow, and `i + step` stays below `2^31` for every capacity up to `2^30`).
* Undefined operations are results of their own: a modulo by zero, a NULL pointer handed to
  `strcmp` and a store past the end of an array end the call with a `Fault`.
* Loops carry a counter of the iterations that remain; it is the loop bound of the source
  (`capacity - collisions` for insert, `capacity + 1 - collisions` for search), and the test of
  the source is kept next to it.
* Output is the value handed to the stream: `print_stats_line` returns the arguments of its
  `fprintf`, the two quotients as exact rationals.
* The indices a call uses are listed by traces, `htable_insert_trace` and
  `htable_search_trace`, next to the functions that compute its result.
-/

namespace Htable

/-- The addressing mode `hashing_t` of htable.h. -/
inductive hashing_t where
  | LINEAR_P
  | DOUBLE_H
  deriving DecidableEq, Repr

/-- The ways a call can leave defined behaviour. -/
inductive Fault where
  | div_by_zero
  | null_deref
  | out_of_bounds
  deriving DecidableEq, Repr

/-- A C string: its char values, terminator excluded. -/
abbrev Key := List Int

/-- The record `struct htablerec`. -/
structure HTable where
  capacity : Nat
  num_keys : Nat
  frequencies : Nat → Nat
  keys : Nat → Option Key
  stats : Nat → Nat
  method : hashing_t

/-- Array store `a[i] = v`. -/
def setAt {α : Type} (a : Nat → α) (i : Nat) (v : α) : Nat → α :=
  fun j => if j = i then v else a j

/-- The constructor `htable_new`: no key, every frequency and every stats entry zero. -/
def htable_new (capacity : Nat) (method : hashing_t) : HTable :=
  { capacity := capacity
    num_keys := 0
    frequencies := fun _ => 0
    keys := fun _ => none
    stats := fun _ => 0
    method := method }

/-- The loop of `htable_word_to_int`: `result = (*word++ + 31 * result)` in unsigned 32-bit
arithmetic. -/
def word_to_int_loop : Key → Nat → Nat
  | [], result => result
  | c :: word, result => word_to_int_loop word (((c + 31 * (result : Int)) % 4294967296).toNat)

/-- The string hash `htable_word_to_int`. -/
def htable_word_to_int (word : Key) : Nat :=
  word_to_int_loop word 0

/-- The value of `h->capacity - 1` after its conversion to `unsigned int`. -/
def step_divisor (h : HTable) : Nat :=
  if h.capacity = 0 then 4294967295 else h.capacity - 1

/-- The function `htable_step`: `1 + (i_key % (h->capacity - 1))`.  The sum never wraps: the
remainder is below the divisor, which is at most `2^32 - 1`. -/
def htable_step (h : HTable) (i_key : Nat) : Except Fault Nat :=
  if step_divisor h = 0 then Except.error Fault.div_by_zero
  else Except.ok (1 + i_key % step_divisor h)

/-- The advance of the probe index at the end of one iteration of the insert loop. -/
def probe_next (h : HTable) (step i : Nat) : Nat :=
  if h.method = hashing_t.DOUBLE_H then (i + step) % h.capacity else (i + 1) % h.capacity

/-- The `while (collisions < h->capacity)` loop of `htable_insert`, with `n` the number of
iterations that remain.  Returns the table and the value returned by the call.  Both stores
`h->stats[h->num_keys] = collisions` go to an array of `capacity` entries: with
`num_keys >= capacity` the store is out of bounds and ends the call with a fault.  The indices
`i` of `keys` and `frequencies` are remainders modulo `capacity`. -/
def insert_loop (str : Key) (step : Nat) :
    Nat → HTable → Nat → Nat → Except Fault (HTable × Nat)
  | 0, h, _, _ => Except.ok (h, 0)
  | n + 1, h, i, collisions =>
    if collisions < h.capacity then
      match h.keys i with
      | none =>
        if h.num_keys < h.capacity then
          Except.ok ({ h with
            keys := setAt h.keys i (some str)
            stats := setAt h.stats h.num_keys collisions
            num_keys := h.num_keys + 1
            frequencies := setAt h.frequencies i (h.frequencies i + 1) }, 1)
        else Except.error Fault.out_of_bounds
      | some k =>
        if k = str then
          Except.ok ({ h with frequencies := setAt h.frequencies i (h.frequencies i + 1) },
            h.frequencies i + 1)
        else if h.num_keys < h.capacity then
          insert_loop str step n
            { h with stats := setAt h.stats h.num_keys (collisions + 1) }
            (probe_next h step i) (collisions + 1)
        else Except.error Fault.out_of_bounds
    else Except.ok (h, 0)

/-- The function `htable_insert`. -/
def htable_insert (h : HTable) (str : Key) : Except Fault (HTable × Nat) :=
  match htable_step h (htable_word_to_int str) with
  | Except.error e => Except.error e
  | Except.ok step =>
    if h.capacity = 0 then Except.error Fault.div_by_zero
    else insert_loop str step h.capacity h (htable_word_to_int str % h.capacity) 0

/-- The `while` loop of `htable_search`, with `n` the number of iterations that remain.  The
condition evaluates `strcmp(h->keys[pos], str)` first, so an empty slot is handed to `strcmp`.
Returns the final `pos` and `collisions`. -/
def search_loop (h : HTable) (str : Key) : Nat → Nat → Nat → Except Fault (Nat × Nat)
  | 0, pos, collisions =>
    match h.keys pos with
    | none => Except.error Fault.null_deref
    | some _ => Except.ok (pos, collisions)
  | n + 1, pos, collisions =>
    match h.keys pos with
    | none => Except.error Fault.null_deref
    | some k =>
      if k ≠ str ∧ collisions ≤ h.capacity then
        if h.method = hashing_t.DOUBLE_H then
          match htable_step h pos with
          | Except.error e => Except.error e
          | Except.ok p => search_loop h str n p (collisions + 1)
        else search_loop h str n ((pos + 1) % h.capacity) (collisions + 1)
      else Except.ok (pos, collisions)

/-- The function `htable_search`. -/
def htable_search (h : HTable) (str : Key) : Except Fault Nat :=
  if h.capacity = 0 then Except.error Fault.div_by_zero
  else
    let start : Except Fault Nat :=
      if h.method = hashing_t.DOUBLE_H then htable_step h (htable_word_to_int str)
      else Except.ok (htable_word_to_int str % h.capacity)
    match start with
    | Except.error e => Except.error e
    | Except.ok pos =>
      match search_loop h str (h.capacity + 1) pos 0 with
      | Except.error e => Except.error e
      | Except.ok (p, collisions) =>
        if collisions = h.capacity then Except.ok 0 else Except.ok (h.frequencies p)

/-- A run of `htable_insert` calls, one per word, as `main` makes them: the value each call
returns is dropped and the next word goes into the table the call left. -/
def insert_all (h : HTable) : List Key → Except Fault HTable
  | [] => Except.ok h
  | k :: ks =>
    match htable_insert h k with
    | Except.error e => Except.error e
    | Except.ok r => insert_all r.1 ks

/-- The tables reachable from `htable_new capacity method` by `htable_insert` calls. -/
def Reachable (capacity : Nat) (method : hashing_t) (h : HTable) : Prop :=
  ∃ ks : List Key, insert_all (htable_new capacity method) ks = Except.ok h

/-- The effective step of a probe sequence: 1 for linear probing, `step` for double hashing. -/
def eff_step (method : hashing_t) (step : Nat) : Nat :=
  match method with
  | hashing_t.LINEAR_P => 1
  | hashing_t.DOUBLE_H => step

/-- The probe sequence `p_0 = i0`, `p_(j+1) = (p_j + s) mod capacity`. -/
def probe_seq (capacity s i0 : Nat) : Nat → Nat
  | 0 => i0
  | j + 1 => (probe_seq capacity s i0 j + s) % capacity

/-- The probe sequence of a key in a table, as the specification words it: it starts at
`hash(k) mod capacity` and advances by 1 (linear probing) or by
`1 + (hash(k) mod (capacity - 1))` (double hashing). -/
def key_probe (h : HTable) (k : Key) (j : Nat) : Nat :=
  probe_seq h.capacity (eff_step h.method (1 + htable_word_to_int k % (h.capacity - 1)))
    (htable_word_to_int k % h.capacity) j

/-- The set of occupied slots (non-NULL key) of a table. -/
def occupied (h : HTable) : Finset Nat :=
  (Finset.range h.capacity).filter (fun i => (h.keys i).isSome)

/-- The table of capacity 2 after the words "a" and "b" under linear probing: both slots are
occupied. -/
def table_full2 : HTable :=
  { capacity := 2
    num_keys := 2
    frequencies := setAt (setAt (fun _ => 0) 1 1) 0 1
    keys := setAt (setAt (fun _ => none) 1 (some [97])) 0 (some [98])
    stats := setAt (setAt (fun _ => 0) 0 0) 1 0
    method := hashing_t.LINEAR_P }

/-- The table of capacity 7 after the words "a" and "h" under linear probing: both hash to
slot 6, so "h" is stored in slot 0 after one failed probe. -/
def table_ah : HTable :=
  { capacity := 7
    num_keys := 2
    frequencies := setAt (setAt (fun _ => 0) 6 1) 0 1
    keys := setAt (setAt (fun _ => none) 6 (some [97])) 0 (some [104])
    stats := setAt (setAt (setAt (fun _ => 0) 0 0) 1 1) 1 1
    method := hashing_t.LINEAR_P }

/-- The table after a failed probe: `h->stats[h->num_keys] = collisions`. -/
def bump (h : HTable) (c : Nat) : HTable :=
  { h with stats := setAt h.stats h.num_keys c }

/-- The table after `j` failed probes of one call that had `c` collisions before them. -/
def skipped (h : HTable) (c j : Nat) : HTable :=
  if j = 0 then h else bump h (c + j)

/-- The table after the key is stored in the empty slot `i` with `c` collisions. -/
def place (h : HTable) (i : Nat) (str : Key) (c : Nat) : HTable :=
  { h with
    keys := setAt h.keys i (some str)
    stats := setAt h.stats h.num_keys c
    num_keys := h.num_keys + 1
    frequencies := setAt h.frequencies i (h.frequencies i + 1) }

/-- The table after the frequency of slot `i` is incremented. -/
def incr (h : HTable) (i : Nat) : HTable :=
  { h with frequencies := setAt h.frequencies i (h.frequencies i + 1) }

/-- Slot `p` holds a key different from `str`: a failed probe. -/
def other (h : HTable) (str : Key) (p : Nat) : Prop :=
  ∃ k, h.keys p = some k ∧ k ≠ str

/-- The invariant, over the fields it reads: keys are unique, `num_keys` counts the occupied
slots, a slot has a positive frequency exactly when it is occupied, and every stored key sits
on its own probe sequence behind occupied slots only. -/
structure InvC (cap : Nat) (m : hashing_t) (nk : Nat) (freq : Nat → Nat)
    (keys : Nat → Option Key) : Prop where
  uniq : ∀ i j k, i < cap → j < cap → keys i = some k → keys j = some k → i = j
  count : nk = ((Finset.range cap).filter (fun i => (keys i).isSome)).card
  freq_pos : ∀ i, i < cap → keys i ≠ none → 1 ≤ freq i
  freq_zero : ∀ i, i < cap → keys i = none → freq i = 0
  path : ∀ i k, i < cap → keys i = some k → ∃ j, j < cap ∧
    probe_seq cap (eff_step m (1 + htable_word_to_int k % (cap - 1)))
      (htable_word_to_int k % cap) j = i ∧
    ∀ j1, j1 < j → keys (probe_seq cap (eff_step m (1 + htable_word_to_int k % (cap - 1)))
      (htable_word_to_int k % cap) j1) ≠ none

/-- The invariant of a table. -/
def Inv (h : HTable) : Prop :=
  InvC h.capacity h.method h.num_keys h.frequencies h.keys

/-- The value of the string hash as a polynomial in 31, before the reduction modulo `2^32`:
the sum of `c_i * 31^(n-1-i)` over the characters `c_0 .. c_(n-1)`. -/
def hash_sum : List Int → Int
  | [] => 0
  | c :: word => c * 31 ^ word.length + hash_sum word

/-- The local variables of `print_stats_line` that its loop updates.  The C variable
`average_collisions` is a double that accumulates integers; it holds their exact sum. -/
structure StatsAcc where
  at_home : Nat
  max_collisions : Nat
  average_collisions : Nat

/-- The state of the `for (i = 0; i < current_entries; i++)` loop of `print_stats_line` after
its first `n` iterations. -/
def stats_scan (stats : Nat → Nat) : Nat → StatsAcc
  | 0 => { at_home := 0, max_collisions := 0, average_collisions := 0 }
  | n + 1 =>
    { at_home := if stats n = 0 then (stats_scan stats n).at_home + 1
        else (stats_scan stats n).at_home
      max_collisions := if stats n > (stats_scan stats n).max_collisions then stats n
        else (stats_scan stats n).max_collisions
      average_collisions := (stats_scan stats n).average_collisions + stats n }

/-- The five values `print_stats_line` hands to `fprintf`, the two quotients as exact
rationals. -/
structure StatsLine where
  percent_full : Nat
  current_entries : Nat
  percent_at_home : ℚ
  average_collisions : ℚ
  max_collisions : Nat

/-- The function `print_stats_line`: the line it prints, or `none` when it prints nothing.
The product `capacity * percent_full` is the exact one, as long as it fits an `int`. -/
def print_stats_line (h : HTable) (percent_full : Nat) : Option StatsLine :=
  if 0 < h.capacity * percent_full / 100 ∧ h.capacity * percent_full / 100 ≤ h.num_keys then
    some
      { percent_full := percent_full
        current_entries := h.capacity * percent_full / 100
        percent_at_home :=
          ((stats_scan h.stats (h.capacity * percent_full / 100)).at_home : ℚ) * 100
            / ((h.capacity * percent_full / 100 : Nat) : ℚ)
        average_collisions :=
          ((stats_scan h.stats (h.capacity * percent_full / 100)).average_collisions : ℚ)
            / ((h.capacity * percent_full / 100 : Nat) : ℚ)
        max_collisions := (stats_scan h.stats (h.capacity * percent_full / 100)).max_collisions }
  else none

/-- The number of failed probes of a call for `k`: the slots of its probe sequence, from
position `j` on and at most `n` of them, that are examined and hold a different key. -/
def count_failed (h : HTable) (k : Key) : Nat → Nat → Nat
  | 0, _ => 0
  | n + 1, j =>
    match h.keys (key_probe h k j) with
    | none => 0
    | some k1 => if k1 = k then 0 else 1 + count_failed h k n (j + 1)

/-- The number of failed probes `htable_insert h k` makes. -/
def failed_probes (h : HTable) (k : Key) : Nat :=
  count_failed h k h.capacity 0

/-- The chronological list of the failed-probe counts of the calls of a run that stored a new
key (the calls that raised `num_keys`). -/
def collision_log (h : HTable) : List Key → List Nat
  | [] => []
  | k :: ks =>
    match htable_insert h k with
    | Except.error _ => []
    | Except.ok r =>
      if r.1.num_keys = h.num_keys + 1 then failed_probes h k :: collision_log r.1 ks
      else collision_log r.1 ks

/-- The `for` loop of `next_prime`: whether it finds a divisor `i` or `i + 2` of `input`, with
`n` the number of iterations that remain.  The test `i * i <= input` multiplies two `int`s:
when the product exceeds `INT_MAX` the result is `none`, undefined. -/
def next_prime_scan (input : Int) : Nat → Int → Option Bool
  | 0, _ => some false
  | n + 1, i =>
    if 2147483647 < i * i then none
    else if i * i ≤ input then
      if input % i = 0 ∨ input % (i + 2) = 0 then some true
      else next_prime_scan input n (i + 6)
    else some false

/-- The function `next_prime` of asgn1.c.  Every recursive call is `next_prime(input++)`: the
argument is the value of `input` before the increment.  The first argument bounds the depth of
the recursion; `none` means that no call has returned a defined value within that depth: the
recursion is still open, or `i * i` has overflowed. -/
def next_prime : Nat → Int → Option Int
  | 0, _ => none
  | depth + 1, input =>
    if input ≤ 1 then next_prime depth input
    else if input ≤ 3 then some input
    else if input % 2 = 0 ∨ input % 3 = 0 then next_prime depth input
    else
      match next_prime_scan input input.toNat 5 with
      | none => none
      | some true => next_prime depth input
      | some false => some input

/-- The positions `pos` at which the loop of `htable_search` evaluates
`strcmp(h->keys[pos], str)`, in order; the arguments are those of `search_loop`. -/
def search_trace (h : HTable) (str : Key) : Nat → Nat → Nat → List Nat
  | 0, pos, _ => [pos]
  | n + 1, pos, collisions =>
    pos ::
      match h.keys pos with
      | none => []
      | some k =>
        if k ≠ str ∧ collisions ≤ h.capacity then
          if h.method = hashing_t.DOUBLE_H then
            match htable_step h pos with
            | Except.error _ => []
            | Except.ok p => search_trace h str n p (collisions + 1)
          else search_trace h str n ((pos + 1) % h.capacity) (collisions + 1)
        else []

/-- The positions whose key `htable_search` hands to `strcmp`. -/
def htable_search_trace (h : HTable) (str : Key) : List Nat :=
  if h.capacity = 0 then []
  else
    let start : Except Fault Nat :=
      if h.method = hashing_t.DOUBLE_H then htable_step h (htable_word_to_int str)
      else Except.ok (htable_word_to_int str % h.capacity)
    match start with
    | Except.error _ => []
    | Except.ok pos => search_trace h str (h.capacity + 1) pos 0

/-- The three arrays of the table. -/
inductive Arr where
  | keys
  | frequencies
  | stats
  deriving DecidableEq, Repr

/-- The array accesses (array and index, reads and writes alike) that the statements of the
loop of `htable_insert` make, in order; the arguments are those of `insert_loop`.  The list
goes on past a store that is out of bounds, where `insert_loop` ends the call with a fault:
it shows every access the loop is written to make. -/
def insert_trace (str : Key) (step : Nat) : Nat → HTable → Nat → Nat → List (Arr × Nat)
  | 0, _, _, _ => []
  | n + 1, h, i, collisions =>
    if collisions < h.capacity then
      match h.keys i with
      | none => [(Arr.keys, i), (Arr.keys, i), (Arr.stats, h.num_keys), (Arr.frequencies, i)]
      | some k =>
        if k = str then [(Arr.keys, i), (Arr.keys, i), (Arr.frequencies, i)]
        else
          (Arr.keys, i) :: (Arr.keys, i) :: (Arr.stats, h.num_keys) ::
            insert_trace str step n
              { h with stats := setAt h.stats h.num_keys (collisions + 1) }
              (probe_next h step i) (collisions + 1)
    else []

/-- The array accesses of a call of `htable_insert`. -/
def htable_insert_trace (h : HTable) (str : Key) : List (Arr × Nat) :=
  match htable_step h (htable_word_to_int str) with
  | Except.error _ => []
  | Except.ok step =>
    if h.capacity = 0 then []
    else insert_trace str step h.capacity h (htable_word_to_int str % h.capacity) 0

/-- The table of capacity 11 after the eleven words "a" .. "k" under linear probing: their
hashes 97 .. 107 fall on eleven different slots, so every key is stored at its first probe. -/
def table_11 : HTable :=
  { capacity := 11
    num_keys := 11
    frequencies :=
      setAt (setAt (setAt (setAt (setAt (setAt (setAt (setAt (setAt (setAt (setAt (fun _ => 0)
      9 1) 10 1) 0 1) 1 1) 2 1) 3 1) 4 1) 5 1) 6 1) 7 1) 8 1
    keys :=
      setAt (setAt (setAt (setAt (setAt (setAt (setAt (setAt (setAt (setAt (setAt (fun _ =>
      none) 9 (some [97])) 10 (some [98])) 0 (some [99])) 1 (some [100])) 2 (some [101])) 3
      (some [102])) 4 (some [103])) 5 (some [104])) 6 (some [105])) 7 (some [106])) 8 (some
      [107])
    stats :=
      setAt (setAt (setAt (setAt (setAt (setAt (setAt (setAt (setAt (setAt (setAt (fun _ => 0)
      0 0) 1 0) 2 0) 3 0) 4 0) 5 0) 6 0) 7 0) 8 0) 9 0) 10 0
    method := hashing_t.LINEAR_P }

/-- The table records exactly the words of `done`: a key is in some slot exactly when it is
one of the words, the frequency of its slot is the number of its occurrences, and `num_keys`
is the number of distinct words. -/
def Tracks (h : HTable) (done : List Key) : Prop :=
  (∀ k, k ∈ done ↔ ∃ i, i < h.capacity ∧ h.keys i = some k) ∧
    (∀ i k, i < h.capacity → h.keys i = some k → h.frequencies i = done.count k) ∧
    h.num_keys = done.toFinset.card

/-! ## Basic facts -/

theorem setAt_same {α : Type} (a : Nat → α) (i : Nat) (v : α) : setAt a i v i = v := by
  simp [setAt]

theorem setAt_ne {α : Type} (a : Nat → α) (i j : Nat) (v : α) (hne : j ≠ i) :
    setAt a i v j = a j := by
  simp [setAt, hne]

theorem setAt_setAt {α : Type} (a : Nat → α) (i : Nat) (v w : α) :
    setAt (setAt a i v) i w = setAt a i w := by
  funext j
  by_cases hj : j = i <;> simp [setAt, hj]

theorem bump_bump (h : HTable) (c d : Nat) : bump (bump h c) d = bump h d := by
  simp [bump, setAt_setAt]

theorem skipped_bump (h : HTable) (c j : Nat) :
    skipped (bump h (c + 1)) (c + 1) j = skipped h c (j + 1) := by
  unfold skipped
  by_cases hj : j = 0
  · subst hj
    simp
  · simp only [hj, if_false, Nat.succ_ne_zero, bump_bump]
    congr 1
    omega

theorem htable_step_ok (h : HTable) (v : Nat) (hcap : 1 < h.capacity) :
    htable_step h v = Except.ok (1 + v % (h.capacity - 1)) := by
  have h0 : h.capacity ≠ 0 := by omega
  have h1 : h.capacity - 1 ≠ 0 := by omega
  simp [htable_step, step_divisor, h0, h1]

theorem htable_insert_eq (h : HTable) (str : Key) (hcap : 1 < h.capacity) :
    htable_insert h str =
      insert_loop str (1 + htable_word_to_int str % (h.capacity - 1)) h.capacity h
        (htable_word_to_int str % h.capacity) 0 := by
  have h0 : h.capacity ≠ 0 := by omega
  simp [htable_insert, htable_step_ok h _ hcap, h0]

theorem htable_insert_fault (h : HTable) (str : Key) (hcap : h.capacity ≤ 1) :
    htable_insert h str = Except.error Fault.div_by_zero := by
  rcases Nat.eq_zero_or_pos h.capacity with h0 | hpos
  · simp [htable_insert, htable_step, step_divisor, h0]
  · have h1 : h.capacity = 1 := by omega
    simp [htable_insert, htable_step, step_divisor, h1]

theorem htable_insert_ok_cap (h : HTable) (str : Key) (r : HTable × Nat)
    (hr : htable_insert h str = Except.ok r) : 1 < h.capacity := by
  by_contra hcon
  rw [htable_insert_fault h str (by omega)] at hr
  cases hr

theorem insert_loop_succ (str : Key) (step n : Nat) (h : HTable) (i c : Nat) :
    insert_loop str step (n + 1) h i c =
      if c < h.capacity then
        match h.keys i with
        | none =>
          if h.num_keys < h.capacity then
            Except.ok ({ h with
              keys := setAt h.keys i (some str)
              stats := setAt h.stats h.num_keys c
              num_keys := h.num_keys + 1
              frequencies := setAt h.frequencies i (h.frequencies i + 1) }, 1)
          else Except.error Fault.out_of_bounds
        | some k =>
          if k = str then
            Except.ok ({ h with frequencies := setAt h.frequencies i (h.frequencies i + 1) },
              h.frequencies i + 1)
          else if h.num_keys < h.capacity then
            insert_loop str step n
              { h with stats := setAt h.stats h.num_keys (c + 1) }
              (probe_next h step i) (c + 1)
          else Except.error Fault.out_of_bounds
      else Except.ok (h, 0) := rfl

theorem search_loop_succ (h : HTable) (str : Key) (n pos c : Nat) :
    search_loop h str (n + 1) pos c =
      match h.keys pos with
      | none => Except.error Fault.null_deref
      | some k =>
        if k ≠ str ∧ c ≤ h.capacity then
          if h.method = hashing_t.DOUBLE_H then
            match htable_step h pos with
            | Except.error e => Except.error e
            | Except.ok p => search_loop h str n p (c + 1)
          else search_loop h str n ((pos + 1) % h.capacity) (c + 1)
        else Except.ok (pos, c) := rfl

/-- The iteration counter of the insert loop never cuts the loop short: once it covers
`capacity - collisions`, one more unit changes nothing. -/
theorem insert_loop_fuel (str : Key) (step : Nat) :
    ∀ (n : Nat) (h : HTable) (i c : Nat), h.capacity ≤ c + n →
      insert_loop str step (n + 1) h i c = insert_loop str step n h i c := by
  intro n
  induction n with
  | zero =>
    intro h i c hle
    have hc : ¬ c < h.capacity := by omega
    simp [insert_loop, hc]
  | succ n ih =>
    intro h i c hle
    rw [insert_loop_succ str step (n + 1) h i c, insert_loop_succ str step n h i c]
    by_cases hc : c < h.capacity
    · cases hk : h.keys i with
      | none => rfl
      | some k =>
        by_cases hks : k = str
        · simp only [hc, hks, if_true]
        · by_cases hroom : h.num_keys < h.capacity
          · have hrec := ih { h with stats := setAt h.stats h.num_keys (c + 1) }
              (probe_next h step i) (c + 1) (by show h.capacity ≤ c + 1 + n; omega)
            simp only [hc, hks, hroom, if_true, if_false]
            exact hrec
          · simp only [hc, hks, hroom, if_true, if_false]
    · simp only [hc, if_false]

/-- The iteration counter of the search loop never cuts the loop short: once it covers
`capacity + 1 - collisions`, one more unit changes nothing. -/
theorem search_loop_fuel (h : HTable) (str : Key) :
    ∀ (n : Nat) (pos c : Nat), h.capacity + 1 ≤ c + n →
      search_loop h str (n + 1) pos c = search_loop h str n pos c := by
  intro n
  induction n with
  | zero =>
    intro pos c hle
    have hc : ¬ c ≤ h.capacity := by omega
    cases hk : h.keys pos with
    | none => simp [search_loop, hk]
    | some k => simp [search_loop, hk, hc]
  | succ n ih =>
    intro pos c hle
    rw [search_loop_succ h str (n + 1) pos c, search_loop_succ h str n pos c]
    cases hk : h.keys pos with
    | none => rfl
    | some k =>
      by_cases hcond : k ≠ str ∧ c ≤ h.capacity
      · by_cases hm : h.method = hashing_t.DOUBLE_H
        · cases hs : htable_step h pos with
          | error e => simp only [hcond, hm, if_true, and_self, ne_eq, not_false_eq_true]
          | ok p =>
            have hrec := ih p (c + 1) (by omega)
            simp only [hcond, hm, if_true, and_self, ne_eq, not_false_eq_true]
            exact hrec
        · have hrec := ih ((pos + 1) % h.capacity) (c + 1) (by omega)
          simp only [hcond, hm, if_true, if_false, and_self, ne_eq, not_false_eq_true]
          exact hrec
      · simp only [hcond, if_false]

theorem probe_next_eq (h : HTable) (step i : Nat) :
    probe_next h step i = (i + eff_step h.method step) % h.capacity := by
  unfold probe_next eff_step
  cases h.method <;> simp

theorem probe_seq_shift (cap s i0 : Nat) (j : Nat) :
    probe_seq cap s ((i0 + s) % cap) j = probe_seq cap s i0 (j + 1) := by
  induction j with
  | zero => rfl
  | succ j ih =>
    show (probe_seq cap s ((i0 + s) % cap) j + s) % cap = (probe_seq cap s i0 (j + 1) + s) % cap
    rw [ih]

theorem probe_seq_lt (cap s i0 : Nat) (hcap : 0 < cap) (hi : i0 < cap) (j : Nat) :
    probe_seq cap s i0 j < cap := by
  cases j with
  | zero => exact hi
  | succ j => exact Nat.mod_lt _ hcap

/-- After `j` failed probes on a table with `num_keys < capacity` the loop continues from the
`j`-th position of the probe sequence with `j` more collisions. -/
theorem insert_loop_skip (str : Key) (step : Nat) :
    ∀ (j n : Nat) (h : HTable) (i c : Nat),
      (∀ j1, j1 < j → other h str (probe_seq h.capacity (eff_step h.method step) i j1)) →
      c + j ≤ h.capacity → h.num_keys < h.capacity →
      insert_loop str step (j + n) h i c =
        insert_loop str step n (skipped h c j)
          (probe_seq h.capacity (eff_step h.method step) i j) (c + j) := by
  intro j
  induction j with
  | zero =>
    intro n h i c _ _ _
    simp [skipped, probe_seq]
  | succ j ih =>
    intro n h i c hfail hle hroom
    obtain ⟨k, hk, hne⟩ := hfail 0 (Nat.succ_pos j)
    have hk0 : h.keys i = some k := hk
    have hc : c < h.capacity := by omega
    have e1 : j + 1 + n = (j + n) + 1 := by omega
    rw [e1]
    have step1 : insert_loop str step (j + n + 1) h i c =
        insert_loop str step (j + n) (bump h (c + 1)) (probe_next h step i) (c + 1) := by
      rw [insert_loop_succ]
      simp only [hc, hk0, hne, hroom, if_true, if_false]
      rfl
    rw [step1, probe_next_eq]
    have hfail2 : ∀ j1, j1 < j → other (bump h (c + 1)) str
        (probe_seq (bump h (c + 1)).capacity (eff_step (bump h (c + 1)).method step)
          ((i + eff_step h.method step) % h.capacity) j1) := by
      intro j1 hj1
      have := hfail (j1 + 1) (by omega)
      rw [← probe_seq_shift] at this
      exact this
    rw [ih n (bump h (c + 1)) _ (c + 1) hfail2 (by show c + 1 + j ≤ h.capacity; omega) hroom]
    rw [skipped_bump]
    have e2 : c + 1 + j = c + (j + 1) := by omega
    rw [e2]
    show insert_loop str step n (skipped h c (j + 1))
      (probe_seq h.capacity (eff_step h.method step) ((i + eff_step h.method step) % h.capacity) j)
      (c + (j + 1)) = _
    rw [probe_seq_shift]

theorem skipped_capacity (h : HTable) (c j : Nat) : (skipped h c j).capacity = h.capacity := by
  unfold skipped; split <;> rfl

theorem skipped_method (h : HTable) (c j : Nat) : (skipped h c j).method = h.method := by
  unfold skipped; split <;> rfl

theorem skipped_keys (h : HTable) (c j : Nat) : (skipped h c j).keys = h.keys := by
  unfold skipped; split <;> rfl

theorem skipped_frequencies (h : HTable) (c j : Nat) :
    (skipped h c j).frequencies = h.frequencies := by
  unfold skipped; split <;> rfl

theorem skipped_num_keys (h : HTable) (c j : Nat) : (skipped h c j).num_keys = h.num_keys := by
  unfold skipped; split <;> rfl

theorem skipped_stats_ne (h : HTable) (c j x : Nat) (hx : x ≠ h.num_keys) :
    (skipped h c j).stats x = h.stats x := by
  unfold skipped
  split
  · rfl
  · exact setAt_ne _ _ _ _ hx

theorem skipped_stats_at (h : HTable) (c j : Nat) (hj : j ≠ 0) :
    (skipped h c j).stats h.num_keys = c + j := by
  unfold skipped
  rw [if_neg hj]
  exact setAt_same _ _ _

/-- Every probe fails on a table with `num_keys < capacity`: the loop runs `capacity` times
and the call returns 0. -/
theorem insert_loop_full (str : Key) (step : Nat) (h : HTable) (i : Nat)
    (hfail : ∀ j, j < h.capacity →
      other h str (probe_seq h.capacity (eff_step h.method step) i j))
    (hroom : h.num_keys < h.capacity) :
    insert_loop str step h.capacity h i 0 = Except.ok (skipped h 0 h.capacity, 0) := by
  have hs := insert_loop_skip str step h.capacity 0 h i 0 hfail (by omega) hroom
  rw [Nat.add_zero] at hs
  rw [hs]
  rfl

/-- The first probe that does not fail finds an empty slot: the key is stored there. -/
theorem insert_loop_place (str : Key) (step : Nat) (h : HTable) (i j : Nat)
    (hj : j < h.capacity)
    (hfail : ∀ j1, j1 < j → other h str (probe_seq h.capacity (eff_step h.method step) i j1))
    (hempty : h.keys (probe_seq h.capacity (eff_step h.method step) i j) = none)
    (hroom : h.num_keys < h.capacity) :
    insert_loop str step h.capacity h i 0 = Except.ok
      (place (skipped h 0 j) (probe_seq h.capacity (eff_step h.method step) i j) str j, 1) := by
  obtain ⟨n, hn⟩ : ∃ n, h.capacity = j + (n + 1) := ⟨h.capacity - j - 1, by omega⟩
  have hs := insert_loop_skip str step j (n + 1) h i 0 hfail (by omega) hroom
  rw [← hn, Nat.zero_add] at hs
  rw [hs, insert_loop_succ]
  have hc : j < (skipped h 0 j).capacity := by rw [skipped_capacity]; exact hj
  have hk : (skipped h 0 j).keys (probe_seq h.capacity (eff_step h.method step) i j) = none := by
    rw [skipped_keys]; exact hempty
  have hr : (skipped h 0 j).num_keys < (skipped h 0 j).capacity := by
    rw [skipped_num_keys, skipped_capacity]; exact hroom
  simp only [hc, hk, hr, if_true]
  rfl

/-- The first probe of all finds the key: its frequency is incremented, whatever `num_keys`
is. -/
theorem insert_loop_found_first (str : Key) (step n : Nat) (h : HTable) (i c : Nat)
    (hc : c < h.capacity) (hfound : h.keys i = some str) :
    insert_loop str step (n + 1) h i c = Except.ok (incr h i, h.frequencies i + 1) := by
  rw [insert_loop_succ]
  simp only [hc, hfound, if_true]
  rfl

/-- The first probe that does not fail finds the key: its frequency is incremented. -/
theorem insert_loop_found (str : Key) (step : Nat) (h : HTable) (i j : Nat)
    (hj : j < h.capacity)
    (hfail : ∀ j1, j1 < j → other h str (probe_seq h.capacity (eff_step h.method step) i j1))
    (hfound : h.keys (probe_seq h.capacity (eff_step h.method step) i j) = some str)
    (hroom : j = 0 ∨ h.num_keys < h.capacity) :
    insert_loop str step h.capacity h i 0 = Except.ok
      (incr (skipped h 0 j) (probe_seq h.capacity (eff_step h.method step) i j),
        h.frequencies (probe_seq h.capacity (eff_step h.method step) i j) + 1) := by
  obtain ⟨n, hn⟩ : ∃ n, h.capacity = j + (n + 1) := ⟨h.capacity - j - 1, by omega⟩
  rcases hroom with hj0 | hroom
  · subst hj0
    rw [Nat.zero_add] at hn
    rw [hn]
    exact insert_loop_found_first str step n h i 0 (by omega) hfound
  · have hs := insert_loop_skip str step j (n + 1) h i 0 hfail (by omega) hroom
    rw [← hn, Nat.zero_add] at hs
    rw [hs]
    have hc : j < (skipped h 0 j).capacity := by rw [skipped_capacity]; exact hj
    have hk : (skipped h 0 j).keys (probe_seq h.capacity (eff_step h.method step) i j)
        = some str := by
      rw [skipped_keys]; exact hfound
    rw [insert_loop_found_first str step n _ _ _ hc hk, skipped_frequencies]

theorem key_probe_lt (h : HTable) (k : Key) (j : Nat) (hcap : 0 < h.capacity) :
    key_probe h k j < h.capacity :=
  probe_seq_lt _ _ _ hcap (Nat.mod_lt _ hcap) j

/-- The call on a table with `num_keys < capacity` whose probes all fail. -/
theorem htable_insert_full (h : HTable) (str : Key) (hcap : 1 < h.capacity)
    (hfail : ∀ j, j < h.capacity → other h str (key_probe h str j))
    (hroom : h.num_keys < h.capacity) :
    htable_insert h str = Except.ok (skipped h 0 h.capacity, 0) := by
  rw [htable_insert_eq h str hcap, insert_loop_full str _ h _ hfail hroom]

/-- The call that stores a new key. -/
theorem htable_insert_place (h : HTable) (str : Key) (j : Nat) (hcap : 1 < h.capacity)
    (hj : j < h.capacity)
    (hfail : ∀ j1, j1 < j → other h str (key_probe h str j1))
    (hempty : h.keys (key_probe h str j) = none)
    (hroom : h.num_keys < h.capacity) :
    htable_insert h str = Except.ok (place (skipped h 0 j) (key_probe h str j) str j, 1) := by
  rw [htable_insert_eq h str hcap, insert_loop_place str _ h _ j hj hfail hempty hroom]
  rfl

/-- The call that finds its key, at the first probe or on a table with
`num_keys < capacity`. -/
theorem htable_insert_found (h : HTable) (str : Key) (j : Nat) (hcap : 1 < h.capacity)
    (hj : j < h.capacity)
    (hfail : ∀ j1, j1 < j → other h str (key_probe h str j1))
    (hfound : h.keys (key_probe h str j) = some str)
    (hroom : j = 0 ∨ h.num_keys < h.capacity) :
    htable_insert h str = Except.ok
      (incr (skipped h 0 j) (key_probe h str j), h.frequencies (key_probe h str j) + 1) := by
  rw [htable_insert_eq h str hcap, insert_loop_found str _ h _ j hj hfail hfound hroom]
  rfl

/-- A first probe that does not find its key, on a table with `num_keys >= capacity`: the
store `stats[num_keys]` is out of bounds. -/
theorem insert_loop_no_room (str : Key) (step n : Nat) (h : HTable) (i c : Nat)
    (hc : c < h.capacity) (hfull : h.capacity ≤ h.num_keys) (hfirst : h.keys i ≠ some str) :
    insert_loop str step (n + 1) h i c = Except.error Fault.out_of_bounds := by
  have hroom : ¬ h.num_keys < h.capacity := by omega
  rw [insert_loop_succ]
  cases hk : h.keys i with
  | none => simp only [hc, hroom, if_true, if_false]
  | some k =>
    have hne : k ≠ str := by
      intro hks
      rw [hks] at hk
      exact hfirst hk
    simp only [hc, hne, hroom, if_true, if_false]

/-- The call whose first probe does not find its key, on a table with
`num_keys >= capacity`: the store `stats[num_keys]` is out of bounds. -/
theorem htable_insert_no_room (h : HTable) (str : Key) (hcap : 1 < h.capacity)
    (hfull : h.capacity ≤ h.num_keys) (hfirst : h.keys (key_probe h str 0) ≠ some str) :
    htable_insert h str = Except.error Fault.out_of_bounds := by
  obtain ⟨n, hn⟩ : ∃ n, h.capacity = n + 1 := ⟨h.capacity - 1, by omega⟩
  have hloop := insert_loop_no_room str (1 + htable_word_to_int str % (h.capacity - 1)) n h
    (htable_word_to_int str % h.capacity) 0 (by omega) hfull hfirst
  rw [htable_insert_eq h str hcap]
  rw [← hn] at hloop
  exact hloop

theorem not_other_iff (h : HTable) (str : Key) (p : Nat) :
    ¬ other h str p ↔ h.keys p = none ∨ h.keys p = some str := by
  unfold other
  cases hk : h.keys p with
  | none => simp
  | some k =>
    by_cases hks : k = str
    · simp [hks]
    · simp [hks]

/-- Either every one of the first `n` indices satisfies `Q`, or there is a least one that
does not. -/
theorem first_stop (Q : Nat → Prop) (n : Nat) :
    (∀ j, j < n → Q j) ∨ ∃ j, j < n ∧ ¬ Q j ∧ ∀ j1, j1 < j → Q j1 := by
  classical
  by_cases hex : ∃ j, j < n ∧ ¬ Q j
  · right
    refine ⟨Nat.find hex, (Nat.find_spec hex).1, (Nat.find_spec hex).2, ?_⟩
    intro j1 hj1
    by_contra hq
    exact Nat.find_min hex hj1 ⟨lt_trans hj1 (Nat.find_spec hex).1, hq⟩
  · left
    intro j hj
    by_contra hq
    exact hex ⟨j, hj, hq⟩

/-- The outcomes of a call on a table of capacity above 1: it returns 0 after `capacity`
failed probes, stores the key, or finds the key; or the table has `num_keys >= capacity` and
the call faults on the store `stats[num_keys]`. -/
theorem htable_insert_cases (h : HTable) (str : Key) (hcap : 1 < h.capacity) :
    ((∀ j, j < h.capacity → other h str (key_probe h str j)) ∧
      htable_insert h str = Except.ok (skipped h 0 h.capacity, 0)) ∨
    (∃ j, j < h.capacity ∧ (∀ j1, j1 < j → other h str (key_probe h str j1)) ∧
      h.keys (key_probe h str j) = none ∧
      htable_insert h str = Except.ok (place (skipped h 0 j) (key_probe h str j) str j, 1)) ∨
    (∃ j, j < h.capacity ∧ (∀ j1, j1 < j → other h str (key_probe h str j1)) ∧
      h.keys (key_probe h str j) = some str ∧
      htable_insert h str = Except.ok
        (incr (skipped h 0 j) (key_probe h str j), h.frequencies (key_probe h str j) + 1)) ∨
    (h.capacity ≤ h.num_keys ∧ htable_insert h str = Except.error Fault.out_of_bounds) := by
  by_cases hroom : h.num_keys < h.capacity
  · rcases first_stop (fun j => other h str (key_probe h str j)) h.capacity with
      hall | ⟨j, hj, hn, hb⟩
    · exact Or.inl ⟨hall, htable_insert_full h str hcap hall hroom⟩
    · rcases (not_other_iff h str _).1 hn with he | hf
      · exact Or.inr (Or.inl ⟨j, hj, hb, he, htable_insert_place h str j hcap hj hb he hroom⟩)
      · exact Or.inr (Or.inr (Or.inl
          ⟨j, hj, hb, hf, htable_insert_found h str j hcap hj hb hf (Or.inr hroom)⟩))
  · by_cases hfirst : h.keys (key_probe h str 0) = some str
    · exact Or.inr (Or.inr (Or.inl ⟨0, by omega, fun j1 hj1 => absurd hj1 (Nat.not_lt_zero j1),
        hfirst, htable_insert_found h str 0 hcap (by omega)
          (fun j1 hj1 => absurd hj1 (Nat.not_lt_zero j1)) hfirst (Or.inl rfl)⟩))
    · exact Or.inr (Or.inr (Or.inr
        ⟨by omega, htable_insert_no_room h str hcap (by omega) hfirst⟩))

/-! ## The invariant of reachable tables -/

theorem Inv_new (cap : Nat) (m : hashing_t) : Inv (htable_new cap m) := by
  refine ⟨?_, ?_, ?_, ?_, ?_⟩
  · intro i j k _ _ hi _
    simp [htable_new] at hi
  · simp [htable_new]
  · intro i _ hi
    simp [htable_new] at hi
  · intro i _ _
    rfl
  · intro i k _ hi
    simp [htable_new] at hi

theorem Inv_skipped (h : HTable) (c j : Nat) (hinv : Inv h) : Inv (skipped h c j) := by
  unfold skipped
  split
  · exact hinv
  · exact hinv

theorem card_occ_setAt (cap : Nat) (keys : Nat → Option Key) (e : Nat) (v : Key)
    (he : e < cap) (hempty : keys e = none) :
    ((Finset.range cap).filter (fun i => (setAt keys e (some v) i).isSome)).card =
      ((Finset.range cap).filter (fun i => (keys i).isSome)).card + 1 := by
  have hset : (Finset.range cap).filter (fun i => (setAt keys e (some v) i).isSome) =
      insert e ((Finset.range cap).filter (fun i => (keys i).isSome)) := by
    ext i
    by_cases hi : i = e
    · subst hi
      simp [setAt, he]
    · simp [setAt, hi]
  rw [hset, Finset.card_insert_of_not_mem]
  simp [hempty]

/-- A key whose probe sequence meets an empty slot behind failed probes only is in no slot. -/
theorem absent_of_place (h : HTable) (str : Key) (j : Nat) (hinv : Inv h)
    (hfail : ∀ j1, j1 < j → other h str (key_probe h str j1))
    (hempty : h.keys (key_probe h str j) = none) :
    ∀ i, i < h.capacity → h.keys i ≠ some str := by
  intro i hi hk
  obtain ⟨j0, _, hp, hocc⟩ := hinv.path i str hi hk
  rcases Nat.lt_trichotomy j0 j with hlt | heq | hgt
  · obtain ⟨k, hk1, hne⟩ := hfail j0 hlt
    have hk2 : h.keys i = some k := by rw [← hp]; exact hk1
    rw [hk] at hk2
    exact hne (Option.some.inj hk2).symm
  · subst heq
    have hk2 : h.keys i = none := by rw [← hp]; exact hempty
    rw [hk] at hk2
    cases hk2
  · exact hocc j hgt hempty

theorem Inv_place (h : HTable) (str : Key) (j c : Nat) (hinv : Inv h) (hcap : 0 < h.capacity)
    (hj : j < h.capacity)
    (hfail : ∀ j1, j1 < j → other h str (key_probe h str j1))
    (hempty : h.keys (key_probe h str j) = none) :
    Inv (place h (key_probe h str j) str c) := by
  have habs := absent_of_place h str j hinv hfail hempty
  have he : key_probe h str j < h.capacity := key_probe_lt h str j hcap
  refine ⟨?_, ?_, ?_, ?_, ?_⟩
  · intro i1 i2 k h1 h2 hk1 hk2
    simp only [place, setAt] at hk1 hk2
    by_cases e1 : i1 = key_probe h str j
    · by_cases e2 : i2 = key_probe h str j
      · rw [e1, e2]
      · rw [if_pos e1] at hk1
        rw [if_neg e2] at hk2
        rw [← Option.some.inj hk1] at hk2
        exact absurd hk2 (habs i2 h2)
    · by_cases e2 : i2 = key_probe h str j
      · rw [if_neg e1] at hk1
        rw [if_pos e2] at hk2
        rw [← Option.some.inj hk2] at hk1
        exact absurd hk1 (habs i1 h1)
      · rw [if_neg e1] at hk1
        rw [if_neg e2] at hk2
        exact hinv.uniq i1 i2 k h1 h2 hk1 hk2
  · show h.num_keys + 1 = _
    rw [hinv.count]
    exact (card_occ_setAt h.capacity h.keys _ str he hempty).symm
  · intro i hi hk
    simp only [place, setAt] at hk ⊢
    by_cases e1 : i = key_probe h str j
    · rw [if_pos e1]
      omega
    · rw [if_neg e1] at hk ⊢
      exact hinv.freq_pos i hi hk
  · intro i hi hk
    simp only [place, setAt] at hk ⊢
    by_cases e1 : i = key_probe h str j
    · rw [if_pos e1] at hk
      cases hk
    · rw [if_neg e1] at hk ⊢
      exact hinv.freq_zero i hi hk
  · intro i k hi hk
    have mono : ∀ p, h.keys p ≠ none → setAt h.keys (key_probe h str j) (some str) p ≠ none := by
      intro p hp
      unfold setAt
      split
      · simp
      · exact hp
    simp only [place, setAt] at hk
    by_cases e1 : i = key_probe h str j
    · rw [if_pos e1] at hk
      have hks : str = k := Option.some.inj hk
      subst hks
      refine ⟨j, hj, e1.symm, ?_⟩
      intro j1 hj1
      obtain ⟨k1, hk1, _⟩ := hfail j1 hj1
      apply mono
      show h.keys (key_probe h str j1) ≠ none
      rw [hk1]
      simp
    · rw [if_neg e1] at hk
      obtain ⟨j0, hj0, hp, hocc⟩ := hinv.path i k hi hk
      exact ⟨j0, hj0, hp, fun j1 hj1 => mono _ (hocc j1 hj1)⟩

theorem Inv_incr (h : HTable) (e : Nat) (k : Key) (hinv : Inv h) (hk : h.keys e = some k) :
    Inv (incr h e) := by
  refine ⟨hinv.uniq, hinv.count, ?_, ?_, hinv.path⟩
  · intro i hi hki
    simp only [incr, setAt]
    by_cases e1 : i = e
    · rw [if_pos e1]
      omega
    · rw [if_neg e1]
      exact hinv.freq_pos i hi hki
  · intro i hi hki
    simp only [incr, setAt]
    by_cases e1 : i = e
    · have hki2 : h.keys i = none := hki
      rw [e1, hk] at hki2
      cases hki2
    · rw [if_neg e1]
      exact hinv.freq_zero i hi hki

/-- A call that returns keeps the invariant. -/
theorem Inv_insert (h : HTable) (str : Key) (r : HTable × Nat) (hinv : Inv h)
    (hr : htable_insert h str = Except.ok r) : Inv r.1 := by
  have hcap := htable_insert_ok_cap h str r hr
  rcases htable_insert_cases h str hcap with ⟨_, he⟩ | ⟨j, hj, hb, hk, he⟩ | ⟨j, hj, hb, hk, he⟩ |
    ⟨hfull4, he4⟩
  · rw [he] at hr
    cases hr
    exact Inv_skipped h 0 _ hinv
  · rw [he] at hr
    cases hr
    have hp := Inv_place h str j j hinv (by omega) hj hb hk
    show Inv (place (skipped h 0 j) (key_probe h str j) str j)
    unfold skipped
    split
    · exact hp
    · exact hp
  · rw [he] at hr
    cases hr
    have hp := Inv_incr h (key_probe h str j) str hinv hk
    show Inv (incr (skipped h 0 j) (key_probe h str j))
    unfold skipped
    split
    · exact hp
    · exact hp
  · rw [he4] at hr
    cases hr

theorem insert_all_cons (h : HTable) (k : Key) (ks : List Key) (t : HTable)
    (hr : insert_all h (k :: ks) = Except.ok t) :
    ∃ r, htable_insert h k = Except.ok r ∧ insert_all r.1 ks = Except.ok t := by
  unfold insert_all at hr
  cases hi : htable_insert h k with
  | error e =>
    rw [hi] at hr
    cases hr
  | ok r =>
    rw [hi] at hr
    exact ⟨r, rfl, hr⟩

theorem Inv_insert_all (ks : List Key) :
    ∀ (h t : HTable), Inv h → insert_all h ks = Except.ok t → Inv t := by
  induction ks with
  | nil =>
    intro h t hinv hr
    cases hr
    exact hinv
  | cons k ks ih =>
    intro h t hinv hr
    obtain ⟨r, hr1, hr2⟩ := insert_all_cons h k ks t hr
    exact ih r.1 t (Inv_insert h k r hinv hr1) hr2

theorem Inv_reachable (cap : Nat) (m : hashing_t) (h : HTable) (hr : Reachable cap m h) :
    Inv h := by
  obtain ⟨ks, hks⟩ := hr
  exact Inv_insert_all ks _ h (Inv_new cap m) hks

/-! ## Coverage of the probe sequence -/

theorem probe_seq_closed (cap s i0 : Nat) (hi : i0 < cap) :
    ∀ j, probe_seq cap s i0 j = (i0 + j * s) % cap := by
  intro j
  induction j with
  | zero => simp [probe_seq, Nat.mod_eq_of_lt hi]
  | succ j ih =>
    show (probe_seq cap s i0 j + s) % cap = _
    rw [ih, Nat.mod_add_mod]
    congr 1
    ring

theorem probe_seq_inj (cap s i0 a b : Nat) (hco : Nat.Coprime s cap) (hi : i0 < cap)
    (ha : a < cap) (hb : b < cap) (hab : probe_seq cap s i0 a = probe_seq cap s i0 b) :
    a = b := by
  rw [probe_seq_closed cap s i0 hi, probe_seq_closed cap s i0 hi] at hab
  have h1 : i0 + a * s ≡ i0 + b * s [MOD cap] := hab
  have h2 : a * s ≡ b * s [MOD cap] := Nat.ModEq.add_left_cancel' i0 h1
  have h3 : a ≡ b [MOD cap] :=
    Nat.ModEq.cancel_right_of_coprime (Nat.Coprime.symm hco) h2
  exact Nat.ModEq.eq_of_lt_of_lt h3 ha hb

/-- With a step coprime to the capacity, the first `capacity` probes visit every slot. -/
theorem probe_cover (cap s i0 e : Nat) (hco : Nat.Coprime s cap) (hi : i0 < cap)
    (he : e < cap) : ∃ j, j < cap ∧ probe_seq cap s i0 j = e := by
  have hcap : 0 < cap := by omega
  have himg : (Finset.range cap).image (probe_seq cap s i0) = Finset.range cap := by
    apply Finset.eq_of_subset_of_card_le
    · intro x hx
      obtain ⟨j, _, rfl⟩ := Finset.mem_image.1 hx
      exact Finset.mem_range.2 (probe_seq_lt cap s i0 hcap hi j)
    · rw [Finset.card_image_of_injOn]
      intro a ha b hb hab
      exact probe_seq_inj cap s i0 a b hco hi (Finset.mem_range.1 ha) (Finset.mem_range.1 hb) hab
  have hmem : e ∈ (Finset.range cap).image (probe_seq cap s i0) := by
    rw [himg]
    exact Finset.mem_range.2 he
  obtain ⟨j, hj, hje⟩ := Finset.mem_image.1 hmem
  exact ⟨j, Finset.mem_range.1 hj, hje⟩

theorem eff_step_coprime (h : HTable) (v : Nat) (hcap : 1 < h.capacity)
    (hmode : h.method = hashing_t.LINEAR_P ∨ Nat.Prime h.capacity) :
    Nat.Coprime (eff_step h.method (1 + v % (h.capacity - 1))) h.capacity := by
  cases hm : h.method with
  | LINEAR_P => simp [eff_step]
  | DOUBLE_H =>
    rw [hm] at hmode
    rcases hmode with hl | hp
    · cases hl
    · have hlt : v % (h.capacity - 1) < h.capacity - 1 := Nat.mod_lt _ (by omega)
      show Nat.Coprime (1 + v % (h.capacity - 1)) h.capacity
      apply Nat.Coprime.symm
      rw [Nat.Prime.coprime_iff_not_dvd hp]
      exact Nat.not_dvd_of_pos_of_lt (by omega) (by omega)

theorem exists_empty (h : HTable) (hinv : Inv h) (hroom : h.num_keys < h.capacity) :
    ∃ e, e < h.capacity ∧ h.keys e = none := by
  by_contra hcon
  have hall : ∀ e ∈ Finset.range h.capacity, (h.keys e).isSome = true := by
    intro e he
    cases hk : h.keys e with
    | none => exact absurd ⟨e, Finset.mem_range.1 he, hk⟩ hcon
    | some k => rfl
  have hc := hinv.count
  rw [Finset.filter_true_of_mem hall, Finset.card_range] at hc
  omega

theorem num_keys_lt_of_empty (h : HTable) (e : Nat) (hinv : Inv h) (he : e < h.capacity)
    (hk : h.keys e = none) : h.num_keys < h.capacity := by
  have hsub : (Finset.range h.capacity).filter (fun i => (h.keys i).isSome)
      ⊆ (Finset.range h.capacity).erase e := by
    intro i hi
    rw [Finset.mem_filter] at hi
    rw [Finset.mem_erase]
    refine ⟨?_, hi.1⟩
    intro hie
    rw [hie, hk] at hi
    simp at hi
  have hle := Finset.card_le_card hsub
  rw [Finset.card_erase_of_mem (Finset.mem_range.2 he), Finset.card_range] at hle
  have hc := hinv.count
  omega

theorem all_occupied_of_full (h : HTable) (hinv : Inv h) (hfull : h.num_keys = h.capacity) :
    ∀ i, i < h.capacity → h.keys i ≠ none := by
  intro i hi hk
  have := num_keys_lt_of_empty h i hinv hi hk
  omega

/-- A key that is in no slot is stored by the call when the table has room and the step is
coprime to the capacity. -/
theorem htable_insert_absent (h : HTable) (str : Key) (hinv : Inv h) (hcap : 1 < h.capacity)
    (hmode : h.method = hashing_t.LINEAR_P ∨ Nat.Prime h.capacity)
    (habs : ∀ i, i < h.capacity → h.keys i ≠ some str) (hroom : h.num_keys < h.capacity) :
    ∃ j, j < h.capacity ∧ h.keys (key_probe h str j) = none ∧
      htable_insert h str = Except.ok (place (skipped h 0 j) (key_probe h str j) str j, 1) := by
  have hpos : 0 < h.capacity := by omega
  rcases htable_insert_cases h str hcap with ⟨hall, _⟩ | ⟨j, hj, _, hk, he⟩ | ⟨j, hj, _, hk, _⟩ |
    ⟨hfull4, he4⟩
  · obtain ⟨e, he, hke⟩ := exists_empty h hinv hroom
    obtain ⟨j, hj, hje⟩ := probe_cover h.capacity _ (htable_word_to_int str % h.capacity) e
      (eff_step_coprime h (htable_word_to_int str) hcap hmode) (Nat.mod_lt _ hpos) he
    obtain ⟨k, hk, _⟩ := hall j hj
    have hk2 : h.keys e = some k := by rw [← hje]; exact hk
    rw [hke] at hk2
    cases hk2
  · exact ⟨j, hj, hk, he⟩
  · exact absurd hk (habs _ (key_probe_lt h str j hpos))
  · omega

theorem insert_all_distinct (ks : List Key) :
    ∀ h : HTable, Inv h → 1 < h.capacity →
      (h.method = hashing_t.LINEAR_P ∨ Nat.Prime h.capacity) → ks.Nodup →
      (∀ k, k ∈ ks → ∀ i, i < h.capacity → h.keys i ≠ some k) →
      h.num_keys + ks.length ≤ h.capacity →
      ∃ t, insert_all h ks = Except.ok t ∧ t.num_keys = h.num_keys + ks.length := by
  induction ks with
  | nil =>
    intro h _ _ _ _ _ _
    exact ⟨h, rfl, rfl⟩
  | cons k ks ih =>
    intro h hinv hcap hmode hnd habs hlen
    have hnd2 := List.nodup_cons.1 hnd
    have hlen2 : h.num_keys + (ks.length + 1) ≤ h.capacity := hlen
    obtain ⟨j, hj, hk, he⟩ := htable_insert_absent h k hinv hcap hmode
      (habs k (List.mem_cons_self k ks)) (by omega)
    have hinv2 := Inv_insert h k _ hinv he
    have hc2 : (place (skipped h 0 j) (key_probe h k j) k j).capacity = h.capacity :=
      skipped_capacity h 0 j
    have hm2 : (place (skipped h 0 j) (key_probe h k j) k j).method = h.method :=
      skipped_method h 0 j
    have hn2 : (place (skipped h 0 j) (key_probe h k j) k j).num_keys = h.num_keys + 1 := by
      show (skipped h 0 j).num_keys + 1 = _
      rw [skipped_num_keys]
    have hk2 : (place (skipped h 0 j) (key_probe h k j) k j).keys
        = setAt h.keys (key_probe h k j) (some k) := by
      show setAt (skipped h 0 j).keys _ _ = _
      rw [skipped_keys]
    obtain ⟨t, ht, htn⟩ := ih (place (skipped h 0 j) (key_probe h k j) k j) hinv2
      (by rw [hc2]; exact hcap) (by rw [hc2, hm2]; exact hmode) hnd2.2
      (by
        intro k1 hk1 i hi
        rw [hc2] at hi
        rw [hk2]
        unfold setAt
        split
        · intro hc
          have : k = k1 := Option.some.inj hc
          rw [this] at hnd2
          exact hnd2.1 hk1
        · exact habs k1 (List.mem_cons_of_mem k hk1) i hi)
      (by rw [hc2, hn2]; omega)
    refine ⟨t, ?_, ?_⟩
    · show (match htable_insert h k with
        | Except.error e => Except.error e
        | Except.ok r => insert_all r.1 ks) = Except.ok t
      rw [he]
      exact ht
    · rw [htn, hn2]
      simp only [List.length_cons]
      omega

/-! ## Reachable tables -/

theorem htable_insert_fields (h : HTable) (str : Key) (r : HTable × Nat)
    (hr : htable_insert h str = Except.ok r) :
    r.1.capacity = h.capacity ∧ r.1.method = h.method := by
  have hcap := htable_insert_ok_cap h str r hr
  rcases htable_insert_cases h str hcap with ⟨_, he⟩ | ⟨j, _, _, _, he⟩ | ⟨j, _, _, _, he⟩ |
    ⟨hfull4, he4⟩
  · rw [he] at hr
    cases hr
    exact ⟨skipped_capacity h 0 _, skipped_method h 0 _⟩
  · rw [he] at hr
    cases hr
    exact ⟨skipped_capacity h 0 _, skipped_method h 0 _⟩
  · rw [he] at hr
    cases hr
    exact ⟨skipped_capacity h 0 _, skipped_method h 0 _⟩
  · rw [he4] at hr
    cases hr

theorem insert_all_fields (ks : List Key) :
    ∀ (h t : HTable), insert_all h ks = Except.ok t →
      t.capacity = h.capacity ∧ t.method = h.method ∧ (t = h ∨ 1 < h.capacity) := by
  induction ks with
  | nil =>
    intro h t hr
    cases hr
    exact ⟨rfl, rfl, Or.inl rfl⟩
  | cons k ks ih =>
    intro h t hr
    obtain ⟨r, hr1, hr2⟩ := insert_all_cons h k ks t hr
    obtain ⟨hc, hm⟩ := htable_insert_fields h k r hr1
    obtain ⟨hc2, hm2, _⟩ := ih r.1 t hr2
    exact ⟨hc2.trans hc, hm2.trans hm, Or.inr (htable_insert_ok_cap h k r hr1)⟩

theorem reachable_fields (cap : Nat) (m : hashing_t) (h : HTable) (hr : Reachable cap m h) :
    h.capacity = cap ∧ h.method = m ∧ (h = htable_new cap m ∨ 1 < cap) := by
  obtain ⟨ks, hks⟩ := hr
  exact insert_all_fields ks _ h hks

/-- A reachable table with a key in some slot has capacity above 1. -/
theorem reachable_occupied_cap (cap : Nat) (m : hashing_t) (h : HTable)
    (hr : Reachable cap m h) (i : Nat) (hi : h.keys i ≠ none) : 1 < h.capacity := by
  obtain ⟨hc, _, hn | hlt⟩ := reachable_fields cap m h hr
  · rw [hn] at hi
    exact absurd rfl hi
  · omega

theorem reachable_full2 : Reachable 2 hashing_t.LINEAR_P table_full2 :=
  ⟨[[97], [98]], rfl⟩

theorem reachable_ah : Reachable 7 hashing_t.LINEAR_P table_ah :=
  ⟨[[97], [104]], rfl⟩

/-! ## The claims -/

/-- C1 (insert/search round trip, either mode) fails under double hashing.  On a fresh table of
capacity 7 with DOUBLE_H, `htable_insert` of "a" returns 1 and stores the key in slot
`97 mod 7 = 6` with frequency 1; `htable_search` of "a" then starts at
`htable_step = 1 + 97 mod 6 = 2`, an empty slot, and hands its NULL key to `strcmp` instead of
returning 1. -/
theorem search_after_insert_double_hashing :
    ∃ t, htable_insert (htable_new 7 hashing_t.DOUBLE_H) [97] = Except.ok (t, 1) ∧
      t.keys 6 = some [97] ∧ t.frequencies 6 = 1 ∧ t.keys 2 = none ∧
      htable_step t (htable_word_to_int [97]) = Except.ok 2 ∧
      htable_search t [97] = Except.error Fault.null_deref :=
  ⟨_, rfl, rfl, rfl, rfl, rfl, rfl⟩

/-- C2 (search of an absent key returns 0) fails.  In the full table of capacity 2 holding "a"
and "b" (linear probing) the search for the absent "c" leaves its loop with
`collisions = 3`, which is not `capacity`, and returns the frequency 1 of the slot it stopped
at; in a table with an empty slot on the probe path (here the fresh table of capacity 7) the
search hands the NULL key of that slot to `strcmp`. -/
theorem search_absent_key_not_zero :
    Reachable 2 hashing_t.LINEAR_P table_full2 ∧
      (∀ i, i < 2 → table_full2.keys i ≠ some [99]) ∧
      search_loop table_full2 [99] 3 1 0 = Except.ok (0, 3) ∧
      htable_search table_full2 [99] = Except.ok 1 ∧
      htable_search (htable_new 7 hashing_t.LINEAR_P) [122] = Except.error Fault.null_deref :=
  ⟨⟨[[97], [98]], rfl⟩, by decide, rfl, rfl, rfl⟩

/-- A reachable table whose slots are all occupied has `num_keys = capacity`, and inserting a
key that is in no slot faults at the first failed probe: the store `stats[num_keys]` is one
past the last entry of the array. -/
theorem reachable_full_insert_faults (cap : Nat) (m : hashing_t) (h : HTable) (k : Key)
    (hr : Reachable cap m h) (hpos : 0 < cap)
    (hocc : ∀ i, i < cap → h.keys i ≠ none)
    (habs : ∀ i, i < cap → h.keys i ≠ some k) :
    h.num_keys = cap ∧ htable_insert h k = Except.error Fault.out_of_bounds := by
  obtain ⟨hc, _, _⟩ := reachable_fields cap m h hr
  have hinv := Inv_reachable cap m h hr
  have hcap : 1 < h.capacity := reachable_occupied_cap cap m h hr 0 (hocc 0 hpos)
  have hnum : h.num_keys = cap := by
    have hall : ∀ e ∈ Finset.range h.capacity, (h.keys e).isSome = true := by
      intro e he
      have hlt : e < cap := by rw [← hc]; exact Finset.mem_range.1 he
      cases hk : h.keys e with
      | none => exact absurd hk (hocc e hlt)
      | some k1 => rfl
    have hcount := hinv.count
    rw [Finset.filter_true_of_mem hall, Finset.card_range] at hcount
    omega
  refine ⟨hnum, htable_insert_no_room h k hcap (by omega) ?_⟩
  exact habs _ (by rw [← hc]; exact key_probe_lt h k 0 (by omega))

/-- C3 (table-full outcome) fails: in the reachable table of capacity 2 that holds the two keys
"a" and "b" (every slot occupied, `num_keys = 2`), `htable_insert` of the absent word "c"
fails its first probe at slot 1 and then executes `h->stats[h->num_keys] = collisions` with
`num_keys = capacity = 2`, a store past the end of the `stats` array, before it can reach
`return 0`.  The same happens under double hashing (capacity 3 holding "a", "b", "c", then
"d"). -/
theorem insert_into_full_table_faults :
    Reachable 2 hashing_t.LINEAR_P table_full2 ∧ table_full2.num_keys = 2 ∧
      (∀ i, i < 2 → table_full2.keys i ≠ none) ∧
      (∀ i, i < 2 → table_full2.keys i ≠ some [99]) ∧
      table_full2.keys (key_probe table_full2 [99] 0) = some [97] ∧
      htable_insert table_full2 [99] = Except.error Fault.out_of_bounds ∧
      ∃ t, insert_all (htable_new 3 hashing_t.DOUBLE_H) [[97], [98], [99]] = Except.ok t ∧
        t.num_keys = 3 ∧ (∀ i, i < 3 → t.keys i ≠ none) ∧
        (∀ i, i < 3 → t.keys i ≠ some [100]) ∧
        htable_insert t [100] = Except.error Fault.out_of_bounds :=
  ⟨⟨[[97], [98]], rfl⟩, rfl, by decide, by decide, rfl, rfl,
    _, rfl, rfl, by decide, by decide, rfl⟩

/-- C4 as stated (either mode, any capacity above the number of keys) fails under double
hashing with a composite capacity: with capacity 4 the three distinct words "d", "p", "X"
all hash to slot 0 with step 2, so the third one only ever probes slots 0 and 2, is rejected
as table-full, and `num_keys` ends at 2, not 3. -/
theorem distinct_inserts_composite_capacity :
    [[100], [112], [88]].Nodup ∧ [[100], [112], [88]].length < 4 ∧
      ∃ t u, insert_all (htable_new 4 hashing_t.DOUBLE_H) [[100], [112]] = Except.ok t ∧
        htable_insert t [88] = Except.ok (u, 0) ∧
        insert_all (htable_new 4 hashing_t.DOUBLE_H) [[100], [112], [88]] = Except.ok u ∧
        u.num_keys = 2 ∧ u.keys 1 = none ∧ u.keys 3 = none :=
  ⟨by decide, by decide, _, _, rfl, rfl, rfl, rfl, rfl, rfl⟩

/-- C4, amended: under linear probing with any capacity, or under double hashing with a prime
capacity, inserting `K` pairwise distinct keys into a fresh table of capacity above `K` (and
above 1) returns for every call and leaves `num_keys = K`. -/
theorem num_keys_after_distinct_inserts (cap : Nat) (m : hashing_t) (ks : List Key)
    (hcap : 1 < cap) (hmode : m = hashing_t.LINEAR_P ∨ Nat.Prime cap)
    (hnd : ks.Nodup) (hlen : ks.length < cap) :
    ∃ t, insert_all (htable_new cap m) ks = Except.ok t ∧ t.num_keys = ks.length := by
  obtain ⟨t, ht, hn⟩ := insert_all_distinct ks (htable_new cap m) (Inv_new cap m) hcap hmode hnd
    (by
      intro k _ i _ hk
      cases hk)
    (by
      show 0 + ks.length ≤ cap
      omega)
  refine ⟨t, ht, ?_⟩
  rw [hn]
  show 0 + ks.length = ks.length
  omega

/-- Witness of the amended C4: three distinct words into a double-hashing table of the prime
capacity 7. -/
theorem num_keys_after_distinct_inserts_witness :
    1 < 7 ∧ (hashing_t.DOUBLE_H = hashing_t.LINEAR_P ∨ Nat.Prime 7) ∧
      [[100], [112], [88]].Nodup ∧ [[100], [112], [88]].length < 7 ∧
      ∃ t, insert_all (htable_new 7 hashing_t.DOUBLE_H) [[100], [112], [88]] = Except.ok t ∧
        t.num_keys = [[100], [112], [88]].length :=
  ⟨by decide, Or.inr (by norm_num), by decide, by decide,
    num_keys_after_distinct_inserts 7 hashing_t.DOUBLE_H [[100], [112], [88]] (by decide)
      (Or.inr (by norm_num)) (by decide) (by decide)⟩

/-- The insertion of a new key on a table of capacity above 1 (the content of C5 there): if
slot `p_j` of the probe sequence of `k` is empty and the slots `p_0 .. p_(j-1)` hold other keys,
the call returns 1, stores `k` in slot `p_j` with frequency 1, writes `j` to
`stats[old num_keys]`, adds 1 to `num_keys`, and leaves every other key and frequency. -/
theorem insert_new_key (cap : Nat) (m : hashing_t) (h : HTable) (k : Key) (j : Nat)
    (hr : Reachable cap m h) (hcap : 1 < cap) (hj : j < cap)
    (hfail : ∀ j1, j1 < j → other h k (key_probe h k j1))
    (hempty : h.keys (key_probe h k j) = none) :
    ∃ t, htable_insert h k = Except.ok (t, 1) ∧
      t.keys (key_probe h k j) = some k ∧ t.frequencies (key_probe h k j) = 1 ∧
      t.stats h.num_keys = j ∧ t.num_keys = h.num_keys + 1 ∧
      t.capacity = cap ∧ t.method = m ∧
      (∀ i, i ≠ key_probe h k j → t.keys i = h.keys i ∧ t.frequencies i = h.frequencies i) ∧
      (∀ x, x ≠ h.num_keys → t.stats x = h.stats x) := by
  obtain ⟨hc, hm, _⟩ := reachable_fields cap m h hr
  have hinv := Inv_reachable cap m h hr
  have hcap2 : 1 < h.capacity := by omega
  have hz := hinv.freq_zero (key_probe h k j) (key_probe_lt h k j (by omega)) hempty
  have hroom := num_keys_lt_of_empty h _ hinv (key_probe_lt h k j (by omega)) hempty
  refine ⟨_, htable_insert_place h k j hcap2 (by omega) hfail hempty hroom, ?_, ?_, ?_, ?_, ?_, ?_,
    ?_, ?_⟩
  · exact setAt_same _ _ _
  · show setAt (skipped h 0 j).frequencies _ _ _ = 1
    rw [setAt_same, skipped_frequencies, hz]
  · show setAt (skipped h 0 j).stats (skipped h 0 j).num_keys j h.num_keys = j
    rw [skipped_num_keys, setAt_same]
  · show (skipped h 0 j).num_keys + 1 = _
    rw [skipped_num_keys]
  · show (skipped h 0 j).capacity = cap
    rw [skipped_capacity]; exact hc
  · show (skipped h 0 j).method = m
    rw [skipped_method]; exact hm
  · intro i hi
    constructor
    · show setAt (skipped h 0 j).keys _ _ i = _
      rw [setAt_ne _ _ _ _ hi, skipped_keys]
    · show setAt (skipped h 0 j).frequencies _ _ i = _
      rw [setAt_ne _ _ _ _ hi, skipped_frequencies]
  · intro x hx
    show setAt (skipped h 0 j).stats (skipped h 0 j).num_keys j x = _
    rw [skipped_num_keys, setAt_ne _ _ _ _ hx]
    exact skipped_stats_ne h 0 j x hx

/-- C5 (insertion of a new key) fails on a table of capacity 1 under linear probing: slot
`p_0 = 0` of the fresh table is empty and `j = 0 < capacity`, yet `htable_insert` computes
`htable_step` before it probes and takes a modulo by `capacity - 1 = 0`; the key is not
stored and no value is returned. -/
theorem insert_capacity_one_linear :
    (htable_new 1 hashing_t.LINEAR_P).keys (key_probe (htable_new 1 hashing_t.LINEAR_P) [97] 0)
        = none ∧
      key_probe (htable_new 1 hashing_t.LINEAR_P) [97] 0 = 0 ∧
      htable_step (htable_new 1 hashing_t.LINEAR_P) (htable_word_to_int [97])
        = Except.error Fault.div_by_zero ∧
      htable_insert (htable_new 1 hashing_t.LINEAR_P) [97] = Except.error Fault.div_by_zero :=
  ⟨rfl, rfl, rfl, rfl⟩

/-- C6 as stated (a re-insertion leaves every entry of `stats`) fails: in the table holding
"a" in slot 6 and "h" in slot 0 (capacity 7, linear probing, `num_keys = 2`), re-inserting "h"
probes slot 6, fails there, records the collision in `stats[num_keys] = stats[2]`, and finds
"h" in slot 0 at the second probe; the call returns 2 and `stats[2]` went from 0 to 1. -/
theorem reinsert_writes_stats :
    Reachable 7 hashing_t.LINEAR_P table_ah ∧
      key_probe table_ah [104] 0 = 6 ∧ table_ah.keys 6 = some [97] ∧
      key_probe table_ah [104] 1 = 0 ∧ table_ah.keys 0 = some [104] ∧
      table_ah.num_keys = 2 ∧ table_ah.stats 2 = 0 ∧
      ∃ t, htable_insert table_ah [104] = Except.ok (t, 2) ∧ t.stats 2 = 1 :=
  ⟨⟨[[97], [104]], rfl⟩, rfl, rfl, rfl, rfl, rfl, rfl, _, rfl, rfl⟩

/-- C6, amended: if slot `p_j` of the probe sequence of `k` holds `k` and the slots
`p_0 .. p_(j-1)` hold other keys, `htable_insert` increments the frequency of slot `p_j` and
returns the new frequency, a value of at least 2; `num_keys`, every key, every other frequency
and every `stats` entry at an index other than `num_keys` (so the whole log below `num_keys`)
are unchanged.  With `j = 0` no `stats` entry is written; with `j >= 1` on a table with
`num_keys < capacity` the entry `stats[num_keys]` is set to `j`.  The case `j >= 1` with
`num_keys = capacity`, where that store is out of bounds, is excluded. -/
theorem reinsert_existing_key (cap : Nat) (m : hashing_t) (h : HTable) (k : Key) (j : Nat)
    (hr : Reachable cap m h) (hj : j < cap)
    (hfail : ∀ j1, j1 < j → other h k (key_probe h k j1))
    (hfound : h.keys (key_probe h k j) = some k)
    (hroom : j = 0 ∨ h.num_keys < cap) :
    ∃ t, htable_insert h k = Except.ok (t, h.frequencies (key_probe h k j) + 1) ∧
      2 ≤ h.frequencies (key_probe h k j) + 1 ∧
      t.frequencies (key_probe h k j) = h.frequencies (key_probe h k j) + 1 ∧
      t.num_keys = h.num_keys ∧ t.capacity = cap ∧ t.method = m ∧ t.keys = h.keys ∧
      (∀ i, i ≠ key_probe h k j → t.frequencies i = h.frequencies i) ∧
      (∀ x, x ≠ h.num_keys → t.stats x = h.stats x) ∧
      (j = 0 → t.stats = h.stats) ∧
      (0 < j → h.num_keys < cap → t.stats h.num_keys = j) := by
  obtain ⟨hc, hm, _⟩ := reachable_fields cap m h hr
  have hinv := Inv_reachable cap m h hr
  have hne : h.keys (key_probe h k j) ≠ none := by rw [hfound]; simp
  have hcap : 1 < h.capacity := reachable_occupied_cap cap m h hr _ hne
  have hf := hinv.freq_pos (key_probe h k j) (key_probe_lt h k j (by omega)) hne
  refine ⟨_, htable_insert_found h k j hcap (by omega) hfail hfound (by omega), by omega,
    ?_, ?_, ?_, ?_,
    ?_, ?_, ?_, ?_, ?_⟩
  · show setAt (skipped h 0 j).frequencies _ _ _ = _
    rw [setAt_same, skipped_frequencies]
  · exact skipped_num_keys h 0 j
  · show (skipped h 0 j).capacity = cap
    rw [skipped_capacity]; exact hc
  · show (skipped h 0 j).method = m
    rw [skipped_method]; exact hm
  · exact skipped_keys h 0 j
  · intro i hi
    show setAt (skipped h 0 j).frequencies _ _ i = _
    rw [setAt_ne _ _ _ _ hi, skipped_frequencies]
  · intro x hx
    exact skipped_stats_ne h 0 j x hx
  · intro hj0
    subst hj0
    rfl
  · intro hj0 _
    show (skipped h 0 j).stats h.num_keys = j
    rw [skipped_stats_at h 0 j (by omega)]
    omega

/-- Witness of the amended C6: re-inserting "h", found at the second probe. -/
theorem reinsert_existing_key_witness :
    Reachable 7 hashing_t.LINEAR_P table_ah ∧ 1 < 7 ∧
      (∀ j1, j1 < 1 → other table_ah [104] (key_probe table_ah [104] j1)) ∧
      table_ah.keys (key_probe table_ah [104] 1) = some [104] ∧
      (1 = 0 ∨ table_ah.num_keys < 7) ∧
      ∃ t, htable_insert table_ah [104]
          = Except.ok (t, table_ah.frequencies (key_probe table_ah [104] 1) + 1) ∧
        2 ≤ table_ah.frequencies (key_probe table_ah [104] 1) + 1 ∧
        t.frequencies (key_probe table_ah [104] 1)
          = table_ah.frequencies (key_probe table_ah [104] 1) + 1 ∧
        t.num_keys = table_ah.num_keys ∧ t.capacity = 7 ∧ t.method = hashing_t.LINEAR_P ∧
        t.keys = table_ah.keys ∧
        (∀ i, i ≠ key_probe table_ah [104] 1 → t.frequencies i = table_ah.frequencies i) ∧
        (∀ x, x ≠ table_ah.num_keys → t.stats x = table_ah.stats x) ∧
        (1 = 0 → t.stats = table_ah.stats) ∧
        (0 < 1 → table_ah.num_keys < 7 → t.stats table_ah.num_keys = 1) :=
  have hfail : ∀ j1, j1 < 1 → other table_ah [104] (key_probe table_ah [104] j1) := by
    intro j1 hj1
    have h0 : j1 = 0 := by omega
    subst h0
    exact ⟨[97], rfl, by decide⟩
  ⟨⟨[[97], [104]], rfl⟩, by decide, hfail, rfl, Or.inr (by decide),
    reinsert_existing_key 7 hashing_t.LINEAR_P table_ah [104] 1 ⟨[[97], [104]], rfl⟩
      (by decide) hfail rfl (Or.inr (by decide))⟩

/-- C7 (key uniqueness): in every table reachable from `htable_new` by `htable_insert` calls,
for either mode and any capacity, two different slots never hold the same key. -/
theorem keys_unique (cap : Nat) (m : hashing_t) (h : HTable) (i j : Nat)
    (hr : Reachable cap m h) (hi : i < cap) (hj : j < cap) (hne : i ≠ j)
    (hocc : h.keys i ≠ none) : h.keys i ≠ h.keys j := by
  obtain ⟨hc, _, _⟩ := reachable_fields cap m h hr
  have hinv := Inv_reachable cap m h hr
  intro heq
  cases hk : h.keys i with
  | none => exact hocc hk
  | some k =>
    exact hne (hinv.uniq i j k (by omega) (by omega) hk (by rw [← heq]; exact hk))

/-- Witness of C7: slots 6 and 0 of the table holding "a" and "h". -/
theorem keys_unique_witness :
    Reachable 7 hashing_t.LINEAR_P table_ah ∧ 6 < 7 ∧ 0 < 7 ∧ 6 ≠ 0 ∧
      table_ah.keys 6 ≠ none ∧ table_ah.keys 6 ≠ table_ah.keys 0 :=
  ⟨⟨[[97], [104]], rfl⟩, by decide, by decide, by decide, by decide,
    keys_unique 7 hashing_t.LINEAR_P table_ah 6 0 ⟨[[97], [104]], rfl⟩ (by decide) (by decide)
      (by decide) (by decide)⟩

/-- C8 (data-model invariant): in every table reachable from `htable_new capacity method`,
capacity and method are those of the construction, `num_keys` is the number of occupied slots
and so at most `capacity`, and a slot has frequency at least 1 exactly when it is occupied and
frequency 0 when it is empty. -/
theorem data_model_invariant (cap : Nat) (m : hashing_t) (h : HTable)
    (hr : Reachable cap m h) :
    h.capacity = cap ∧ h.method = m ∧ h.num_keys = (occupied h).card ∧
      h.num_keys ≤ h.capacity ∧
      ∀ i, i < h.capacity →
        ((1 ≤ h.frequencies i ↔ h.keys i ≠ none) ∧ (h.keys i = none → h.frequencies i = 0)) := by
  obtain ⟨hc, hm, _⟩ := reachable_fields cap m h hr
  have hinv := Inv_reachable cap m h hr
  refine ⟨hc, hm, hinv.count, ?_, ?_⟩
  · rw [hinv.count]
    calc ((Finset.range h.capacity).filter (fun i => (h.keys i).isSome)).card
        ≤ (Finset.range h.capacity).card := Finset.card_filter_le _ _
      _ = h.capacity := Finset.card_range _
  · intro i hi
    refine ⟨⟨?_, hinv.freq_pos i hi⟩, hinv.freq_zero i hi⟩
    intro hf hk
    have := hinv.freq_zero i hi hk
    omega

/-- Witness of C8: the table holding "a" and "h". -/
theorem data_model_invariant_witness :
    Reachable 7 hashing_t.LINEAR_P table_ah ∧
      (table_ah.capacity = 7 ∧ table_ah.method = hashing_t.LINEAR_P ∧
        table_ah.num_keys = (occupied table_ah).card ∧ table_ah.num_keys ≤ table_ah.capacity ∧
        ∀ i, i < table_ah.capacity →
          ((1 ≤ table_ah.frequencies i ↔ table_ah.keys i ≠ none) ∧
            (table_ah.keys i = none → table_ah.frequencies i = 0))) :=
  ⟨⟨[[97], [104]], rfl⟩,
    data_model_invariant 7 hashing_t.LINEAR_P table_ah ⟨[[97], [104]], rfl⟩⟩

/-- C9 as stated (capacity 1 with double hashing is rejected at construction) fails:
`htable_new 1 DOUBLE_H` is a table like any other, with capacity 1 and no key, and the step
computation on it is a modulo by `capacity - 1 = 0`. -/
theorem new_capacity_one_double_hashing :
    (htable_new 1 hashing_t.DOUBLE_H).capacity = 1 ∧
      (htable_new 1 hashing_t.DOUBLE_H).method = hashing_t.DOUBLE_H ∧
      (htable_new 1 hashing_t.DOUBLE_H).num_keys = 0 ∧
      step_divisor (htable_new 1 hashing_t.DOUBLE_H) = 0 ∧
      htable_step (htable_new 1 hashing_t.DOUBLE_H) 97 = Except.error Fault.div_by_zero :=
  ⟨rfl, rfl, rfl, rfl, rfl⟩

/-- C9, amended: `htable_new` checks nothing.  For every capacity and either mode, capacity 1
with double hashing included, it returns the table of that capacity and mode with
`num_keys = 0`, no slot occupied, and every frequency and every stats entry 0. -/
theorem htable_new_unvalidated (cap : Nat) (m : hashing_t) :
    (htable_new cap m).capacity = cap ∧ (htable_new cap m).method = m ∧
      (htable_new cap m).num_keys = 0 ∧ occupied (htable_new cap m) = ∅ ∧
      ∀ i, (htable_new cap m).keys i = none ∧ (htable_new cap m).frequencies i = 0 ∧
        (htable_new cap m).stats i = 0 := by
  refine ⟨rfl, rfl, rfl, ?_, fun i => ⟨rfl, rfl, rfl⟩⟩
  simp [occupied, htable_new]

/-- C10 (step size range): for every capacity above 1 and every hash value `v`, `htable_step`
returns `1 + (v mod (capacity - 1))`, a value between 1 and `capacity - 1`, and every table of
the same capacity gives the same step for `v`. -/
theorem htable_step_range (h : HTable) (v : Nat) (hcap : 1 < h.capacity) :
    htable_step h v = Except.ok (1 + v % (h.capacity - 1)) ∧
      1 ≤ 1 + v % (h.capacity - 1) ∧ 1 + v % (h.capacity - 1) ≤ h.capacity - 1 ∧
      ∀ g : HTable, g.capacity = h.capacity → htable_step g v = htable_step h v := by
  have hlt : v % (h.capacity - 1) < h.capacity - 1 := Nat.mod_lt _ (by omega)
  refine ⟨htable_step_ok h v hcap, by omega, by omega, ?_⟩
  intro g hg
  rw [htable_step_ok h v hcap, htable_step_ok g v (by omega), hg]

/-- Witness of C10: capacity 7 and the hash 97 of "a" give step 2. -/
theorem htable_step_range_witness :
    1 < (htable_new 7 hashing_t.DOUBLE_H).capacity ∧
      (htable_step (htable_new 7 hashing_t.DOUBLE_H) 97
          = Except.ok (1 + 97 % ((htable_new 7 hashing_t.DOUBLE_H).capacity - 1)) ∧
        1 ≤ 1 + 97 % ((htable_new 7 hashing_t.DOUBLE_H).capacity - 1) ∧
        1 + 97 % ((htable_new 7 hashing_t.DOUBLE_H).capacity - 1)
          ≤ (htable_new 7 hashing_t.DOUBLE_H).capacity - 1 ∧
        ∀ g : HTable, g.capacity = (htable_new 7 hashing_t.DOUBLE_H).capacity →
          htable_step g 97 = htable_step (htable_new 7 hashing_t.DOUBLE_H) 97) :=
  ⟨by decide, htable_step_range (htable_new 7 hashing_t.DOUBLE_H) 97 (by decide)⟩

/-! ## The string hash and the statistics line -/


theorem word_to_int_loop_lt (word : Key) :
    ∀ r : Nat, r < 4294967296 → word_to_int_loop word r < 4294967296 := by
  induction word with
  | nil => intro r hr; exact hr
  | cons c w ih =>
    intro r _
    apply ih
    have h1 : (c + 31 * (r : Int)) % 4294967296 < 4294967296 := Int.emod_lt_of_pos _ (by norm_num)
    have h2 : 0 ≤ (c + 31 * (r : Int)) % 4294967296 := Int.emod_nonneg _ (by norm_num)
    omega

theorem word_to_int_loop_eq (word : Key) :
    ∀ r : Nat, r < 4294967296 →
      (word_to_int_loop word r : Int) = ((r : Int) * 31 ^ word.length + hash_sum word) % 4294967296 := by
  induction word with
  | nil =>
    intro r hr
    simp only [word_to_int_loop, hash_sum, List.length_nil, pow_zero, mul_one, add_zero]
    rw [Int.emod_eq_of_lt (by omega) (by omega)]
  | cons c w ih =>
    intro r _
    have h1 : (c + 31 * (r : Int)) % 4294967296 < 4294967296 := Int.emod_lt_of_pos _ (by norm_num)
    have h2 : 0 ≤ (c + 31 * (r : Int)) % 4294967296 := Int.emod_nonneg _ (by norm_num)
    show (word_to_int_loop w (((c + 31 * (r : Int)) % 4294967296).toNat) : Int) = _
    rw [ih _ (by omega), Int.toNat_of_nonneg h2]
    have hm : (c + 31 * (r : Int)) % 4294967296 ≡ c + 31 * (r : Int) [ZMOD 4294967296] :=
      Int.mod_modEq _ _
    have hm2 := (hm.mul_right (31 ^ w.length)).add_right (hash_sum w)
    have hm3 : ((c + 31 * (r : Int)) % 4294967296 * 31 ^ w.length + hash_sum w) % 4294967296
        = ((c + 31 * (r : Int)) * 31 ^ w.length + hash_sum w) % 4294967296 := hm2
    rw [hm3]
    congr 1
    simp only [hash_sum, List.length_cons]
    ring

theorem word_to_int_fold (word : Key) :
    ∀ r : Nat, (word_to_int_loop word r : Int)
      = word.foldl (fun (res : Int) (c : Int) => (c + 31 * res) % 4294967296) (r : Int) := by
  induction word with
  | nil => intro r; rfl
  | cons c w ih =>
    intro r
    have h2 : 0 ≤ (c + 31 * (r : Int)) % 4294967296 := Int.emod_nonneg _ (by norm_num)
    show (word_to_int_loop w (((c + 31 * (r : Int)) % 4294967296).toNat) : Int) = _
    rw [ih, Int.toNat_of_nonneg h2]
    rfl

/-- C11 (string hash): `htable_word_to_int` returns the sum of `c_i * 31^(n-1-i)` over the
characters of the key, reduced modulo `2^32`; it is the fold `result = c + 31 * result` from 0
with 32-bit wraparound, gives 0 for the empty string and stays below `2^32`; and the initial
probe index `hash mod capacity` lies in `[0, capacity)` for every capacity of at least 1. -/
theorem string_hash (word : Key) (cap : Nat) (hcap : 1 ≤ cap) :
    (htable_word_to_int word : Int) = hash_sum word % 4294967296 ∧
      (htable_word_to_int word : Int)
        = word.foldl (fun (res : Int) (c : Int) => (c + 31 * res) % 4294967296) 0 ∧
      htable_word_to_int [] = 0 ∧
      htable_word_to_int word < 4294967296 ∧
      htable_word_to_int word % cap < cap := by
  refine ⟨?_, ?_, rfl, word_to_int_loop_lt word 0 (by norm_num), Nat.mod_lt _ (by omega)⟩
  · have := word_to_int_loop_eq word 0 (by norm_num)
    simpa [htable_word_to_int] using this
  · exact word_to_int_fold word 0

/-- Witness of C11: the word "ab" and capacity 7. -/
theorem string_hash_witness :
    1 ≤ 7 ∧
      ((htable_word_to_int [97, 98] : Int) = hash_sum [97, 98] % 4294967296 ∧
      (htable_word_to_int [97, 98] : Int)
        = [97, 98].foldl (fun (res : Int) (c : Int) => (c + 31 * res) % 4294967296) 0 ∧
      htable_word_to_int [] = 0 ∧
      htable_word_to_int [97, 98] < 4294967296 ∧
      htable_word_to_int [97, 98] % 7 < 7) :=
  ⟨by decide, string_hash [97, 98] 7 (by decide)⟩


theorem stats_scan_at_home (stats : Nat → Nat) (n : Nat) :
    (stats_scan stats n).at_home = ((Finset.range n).filter (fun i => stats i = 0)).card := by
  induction n with
  | zero => rfl
  | succ n ih =>
    rw [Finset.range_succ, Finset.filter_insert]
    by_cases h0 : stats n = 0
    · rw [if_pos h0, Finset.card_insert_of_not_mem (by simp)]
      simp [stats_scan, h0, ih]
    · rw [if_neg h0]
      simp [stats_scan, h0, ih]

theorem stats_scan_sum (stats : Nat → Nat) (n : Nat) :
    (stats_scan stats n).average_collisions = ∑ i in Finset.range n, stats i := by
  induction n with
  | zero => rfl
  | succ n ih =>
    rw [Finset.sum_range_succ, ← ih]
    rfl

theorem stats_scan_max (stats : Nat → Nat) (n : Nat) :
    (stats_scan stats n).max_collisions = (Finset.range n).sup stats := by
  induction n with
  | zero => rfl
  | succ n ih =>
    rw [Finset.range_succ, Finset.sup_insert, ← ih]
    show (if stats n > (stats_scan stats n).max_collisions then stats n
      else (stats_scan stats n).max_collisions) = _
    split
    · exact (max_eq_left (by omega)).symm
    · exact (max_eq_right (by omega)).symm

/-- C12 (snapshot skip condition): `print_stats_line` computes
`current_entries = capacity * percent_full / 100` (integer division) and prints a line exactly
when `0 < current_entries <= num_keys`; otherwise it prints nothing. -/
theorem stats_line_emitted (h : HTable) (percent_full : Nat) :
    ((print_stats_line h percent_full).isSome = true ↔
        (0 < h.capacity * percent_full / 100 ∧ h.capacity * percent_full / 100 ≤ h.num_keys)) ∧
      (print_stats_line h percent_full = none ↔
        ¬ (0 < h.capacity * percent_full / 100 ∧ h.capacity * percent_full / 100 ≤ h.num_keys)) ∧
      ∀ line, print_stats_line h percent_full = some line →
        line.current_entries = h.capacity * percent_full / 100 ∧
          line.percent_full = percent_full := by
  unfold print_stats_line
  by_cases hc : 0 < h.capacity * percent_full / 100 ∧ h.capacity * percent_full / 100 ≤ h.num_keys
  · rw [if_pos hc]
    refine ⟨by simp [hc], by simp [hc], ?_⟩
    intro line hl
    cases hl
    exact ⟨rfl, rfl⟩
  · rw [if_neg hc]
    refine ⟨by simp [hc], by simp [hc], ?_⟩
    intro line hl
    cases hl

/-- C13 (snapshot values): a printed line for `n = current_entries` reports figures over
`stats[0..n-1]` only: the at-home percentage is `100 * |{i < n : stats[i] = 0}| / n`, the
average is the sum of the `stats[i]` over `n`, the maximum is the largest `stats[i]`; when all
of these entries are 0 the line reports 100, 0 and 0. -/
theorem stats_line_values (h : HTable) (percent_full : Nat) (line : StatsLine)
    (hl : print_stats_line h percent_full = some line) :
    0 < line.current_entries ∧ line.current_entries ≤ h.num_keys ∧
      line.percent_at_home =
        100 * (((Finset.range line.current_entries).filter (fun i => h.stats i = 0)).card : ℚ)
          / (line.current_entries : ℚ) ∧
      line.average_collisions =
        ((∑ i in Finset.range line.current_entries, h.stats i : Nat) : ℚ)
          / (line.current_entries : ℚ) ∧
      line.max_collisions = (Finset.range line.current_entries).sup h.stats ∧
      ((∀ i, i < line.current_entries → h.stats i = 0) →
        line.percent_at_home = 100 ∧ line.average_collisions = 0 ∧ line.max_collisions = 0) := by
  unfold print_stats_line at hl
  by_cases hc : 0 < h.capacity * percent_full / 100 ∧ h.capacity * percent_full / 100 ≤ h.num_keys
  · rw [if_pos hc] at hl
    cases hl
    have hne : ((h.capacity * percent_full / 100 : Nat) : ℚ) ≠ 0 := by
      have := hc.1
      exact_mod_cast (by omega : h.capacity * percent_full / 100 ≠ 0)
    refine ⟨hc.1, hc.2, ?_, ?_, ?_, ?_⟩
    · show ((stats_scan h.stats (h.capacity * percent_full / 100)).at_home : ℚ) * 100 / _ = _
      rw [stats_scan_at_home, mul_comm]
    · show ((stats_scan h.stats (h.capacity * percent_full / 100)).average_collisions : ℚ) / _ = _
      rw [stats_scan_sum]
    · exact stats_scan_max h.stats _
    · intro hz
      refine ⟨?_, ?_, ?_⟩
      · show ((stats_scan h.stats (h.capacity * percent_full / 100)).at_home : ℚ) * 100 / _ = 100
        rw [stats_scan_at_home, Finset.filter_true_of_mem (fun i hi => hz i (Finset.mem_range.1 hi)),
          Finset.card_range]
        field_simp
      · show ((stats_scan h.stats (h.capacity * percent_full / 100)).average_collisions : ℚ) / _ = 0
        rw [stats_scan_sum, Finset.sum_eq_zero (fun i hi => hz i (Finset.mem_range.1 hi))]
        simp
      · show (stats_scan h.stats (h.capacity * percent_full / 100)).max_collisions = 0
        rw [stats_scan_max]
        apply Nat.le_zero.1
        apply Finset.sup_le
        intro i hi
        rw [hz i (Finset.mem_range.1 hi)]
  · rw [if_neg hc] at hl
    cases hl

/-- Witness of C13: capacity 11, eleven keys all stored at their first probe, 100 percent. -/
theorem stats_line_values_witness :
    Reachable 11 hashing_t.LINEAR_P table_11 ∧
      ∃ line, print_stats_line table_11 100 = some line ∧ line.current_entries = 11 ∧
        (0 < line.current_entries ∧ line.current_entries ≤ table_11.num_keys ∧
          line.percent_at_home =
            100 * (((Finset.range line.current_entries).filter
              (fun i => table_11.stats i = 0)).card : ℚ) / (line.current_entries : ℚ) ∧
          line.average_collisions =
            ((∑ i in Finset.range line.current_entries, table_11.stats i : Nat) : ℚ)
              / (line.current_entries : ℚ) ∧
          line.max_collisions = (Finset.range line.current_entries).sup table_11.stats ∧
          ((∀ i, i < line.current_entries → table_11.stats i = 0) →
            line.percent_at_home = 100 ∧ line.average_collisions = 0 ∧
              line.max_collisions = 0)) ∧
        (line.percent_at_home = 100 ∧ line.average_collisions = 0 ∧ line.max_collisions = 0) :=
  ⟨⟨[[97], [98], [99], [100], [101], [102], [103], [104], [105], [106], [107]], rfl⟩,
    _, rfl, rfl, stats_line_values table_11 100 _ rfl,
    (stats_line_values table_11 100 _ rfl).2.2.2.2.2 (by decide)⟩

/-! ## next_prime, and the index traces -/

theorem next_prime_scan_succ (input : Int) (n : Nat) (i : Int) :
    next_prime_scan input (n + 1) i =
      if 2147483647 < i * i then none
      else if i * i ≤ input then
        if input % i = 0 ∨ input % (i + 2) = 0 then some true
        else next_prime_scan input n (i + 6)
      else some false := rfl

/-- The iteration counter of the `for` loop of `next_prime` never cuts the loop short: from
`i >= 1`, a counter of `n + 1` with `i + 6 * n` above the input gives what every larger counter
gives; `input` iterations from `i = 5` are always enough. -/
theorem next_prime_scan_fuel (input : Int) :
    ∀ (n m : Nat) (i : Int), 1 ≤ i → input < i + 6 * (n : Int) →
      next_prime_scan input (n + 1 + m) i = next_prime_scan input (n + 1) i := by
  intro n
  induction n with
  | zero =>
    intro m i hi hlt
    have hlt2 : input < i := by simpa using hlt
    have hsq : ¬ i * i ≤ input := by nlinarith
    rw [show 0 + 1 + m = m + 1 by omega, next_prime_scan_succ, next_prime_scan_succ]
    simp only [hsq, if_false]
  | succ n ih =>
    intro m i hi hlt
    have hrec := ih m (i + 6) (by omega) (by push_cast at hlt ⊢; omega)
    rw [show n + 1 + 1 + m = (n + 1 + m) + 1 by omega, next_prime_scan_succ,
      next_prime_scan_succ input (n + 1), hrec]

/-- Whatever `next_prime` returns is its own argument: no call ever passes on a larger value. -/
theorem next_prime_fixed (depth : Nat) (input v : Int) (hv : next_prime depth input = some v) :
    v = input := by
  induction depth with
  | zero => cases hv
  | succ depth ih =>
    unfold next_prime at hv
    split at hv
    · exact ih hv
    · split at hv
      · exact (Option.some.inj hv).symm
      · split at hv
        · exact ih hv
        · split at hv
          · cases hv
          · exact ih hv
          · exact (Option.some.inj hv).symm

/-- C15 (next_prime as documented) fails: every recursive call is `next_prime(input++)`, which
passes the unchanged `input`, so on an input that is not returned at once the recursion never
ends.  At every depth `next_prime(4)`, `next_prime(1)` and `next_prime(25)` have not returned
(the documentation promises 5, 2 and 29); a prime such as 113 is returned by the first
call. -/
theorem next_prime_does_not_return :
    (∀ depth, next_prime depth 4 = none) ∧ (∀ depth, next_prime depth 1 = none) ∧
      (∀ depth, next_prime depth 25 = none) ∧
      (∀ depth, next_prime (depth + 1) 113 = some 113) := by
  refine ⟨?_, ?_, ?_, ?_⟩
  · intro depth
    induction depth with
    | zero => rfl
    | succ depth ih =>
      unfold next_prime
      simpa using ih
  · intro depth
    induction depth with
    | zero => rfl
    | succ depth ih =>
      unfold next_prime
      simpa using ih
  · intro depth
    induction depth with
    | zero => rfl
    | succ depth ih =>
      unfold next_prime
      have hs : next_prime_scan 25 (25 : Int).toNat 5 = some true := by decide
      rw [hs]
      simpa using ih
  · intro depth
    unfold next_prime
    have hs : next_prime_scan 113 (113 : Int).toNat 5 = some false := by decide
    rw [hs]
    simp

/-- C17 (the step is for double hashing only) fails: on a LINEAR_P table of capacity 1
`htable_insert` still calls `htable_step`, whose divisor `capacity - 1` is 0, so for every key
the first insertion into the empty table is a modulo by zero; nothing is stored and neither 1
nor 2 is returned. -/
theorem insert_linear_capacity_one (k : Key) :
    step_divisor (htable_new 1 hashing_t.LINEAR_P) = 0 ∧
      htable_step (htable_new 1 hashing_t.LINEAR_P) (htable_word_to_int k)
        = Except.error Fault.div_by_zero ∧
      htable_insert (htable_new 1 hashing_t.LINEAR_P) k = Except.error Fault.div_by_zero :=
  ⟨rfl, rfl, htable_insert_fault _ k (le_refl 1)⟩

theorem probe_next_lt (h : HTable) (step i : Nat) (hcap : 0 < h.capacity) :
    probe_next h step i < h.capacity := by
  unfold probe_next
  split <;> exact Nat.mod_lt _ hcap

/-- Every array access of the insert loop is at an index below the capacity, except the writes
of `stats[num_keys]`. -/
theorem insert_trace_bounds (str : Key) (step : Nat) :
    ∀ (n : Nat) (h : HTable) (i c : Nat), i < h.capacity →
      ∀ a, a ∈ insert_trace str step n h i c →
        a.2 < h.capacity ∨ a = (Arr.stats, h.num_keys) := by
  intro n
  induction n with
  | zero =>
    intro h i c _ a ha
    simp [insert_trace] at ha
  | succ n ih =>
    intro h i c hi a ha
    unfold insert_trace at ha
    split at ha
    · split at ha
      · simp only [List.mem_cons, List.mem_singleton, List.not_mem_nil, or_false] at ha
        rcases ha with rfl | rfl | rfl | rfl
        · exact Or.inl hi
        · exact Or.inl hi
        · exact Or.inr rfl
        · exact Or.inl hi
      · split at ha
        · simp only [List.mem_cons, List.mem_singleton, List.not_mem_nil, or_false] at ha
          rcases ha with rfl | rfl | rfl
          · exact Or.inl hi
          · exact Or.inl hi
          · exact Or.inl hi
        · simp only [List.mem_cons] at ha
          rcases ha with rfl | rfl | rfl | ha
          · exact Or.inl hi
          · exact Or.inl hi
          · exact Or.inr rfl
          · exact ih { h with stats := setAt h.stats h.num_keys (c + 1) } _ _
              (probe_next_lt h step i (by omega)) a ha
    · simp at ha

/-- A call of the loop that returns has made every array access at an index below the
capacity. -/
theorem insert_trace_of_ok (str : Key) (step : Nat) :
    ∀ (n : Nat) (h : HTable) (i c : Nat) (r : HTable × Nat), i < h.capacity →
      insert_loop str step n h i c = Except.ok r →
      ∀ a, a ∈ insert_trace str step n h i c → a.2 < h.capacity := by
  intro n
  induction n with
  | zero =>
    intro h i c r _ _ a ha
    simp [insert_trace] at ha
  | succ n ih =>
    intro h i c r hi hr a ha
    rw [insert_loop_succ] at hr
    unfold insert_trace at ha
    by_cases hc : c < h.capacity
    · rw [if_pos hc] at hr ha
      cases hk : h.keys i with
      | none =>
        rw [hk] at hr ha
        simp only [] at hr ha
        by_cases hroom : h.num_keys < h.capacity
        · simp only [List.mem_cons, List.mem_singleton, List.not_mem_nil, or_false] at ha
          rcases ha with rfl | rfl | rfl | rfl
          · exact hi
          · exact hi
          · exact hroom
          · exact hi
        · rw [if_neg hroom] at hr
          cases hr
      | some k =>
        rw [hk] at hr ha
        simp only [] at hr ha
        by_cases hks : k = str
        · rw [if_pos hks] at ha
          simp only [List.mem_cons, List.mem_singleton, List.not_mem_nil, or_false] at ha
          rcases ha with rfl | rfl | rfl
          · exact hi
          · exact hi
          · exact hi
        · rw [if_neg hks] at hr ha
          by_cases hroom : h.num_keys < h.capacity
          · rw [if_pos hroom] at hr
            simp only [List.mem_cons] at ha
            rcases ha with rfl | rfl | rfl | ha
            · exact hi
            · exact hi
            · exact hroom
            · exact ih { h with stats := setAt h.stats h.num_keys (c + 1) } _ _ r
                (probe_next_lt h step i (by omega)) hr a ha
          · rw [if_neg hroom] at hr
            cases hr
    · rw [if_neg hc] at ha
      simp at ha

/-- C18 (index safety of insert) fails on a full table: in the reachable table of capacity 2
that holds two keys, inserting the absent word "c" reads `keys[1]` and `keys[0]`, and after
each of the two failed probes writes `stats[num_keys] = stats[2]`, an index equal to the
capacity and so outside `[0, capacity)`. -/
theorem insert_writes_stats_past_end :
    Reachable 2 hashing_t.LINEAR_P table_full2 ∧ table_full2.capacity = 2 ∧
      table_full2.num_keys = 2 ∧
      htable_insert_trace table_full2 [99] =
        [(Arr.keys, 1), (Arr.keys, 1), (Arr.stats, 2),
          (Arr.keys, 0), (Arr.keys, 0), (Arr.stats, 2)] ∧
      (Arr.stats, table_full2.capacity) ∈ htable_insert_trace table_full2 [99] :=
  ⟨⟨[[97], [98]], rfl⟩, rfl, rfl, rfl, by decide⟩

/-- The positions the search loop examines are below the capacity. -/
theorem search_trace_lt (h : HTable) (str : Key) (hcap : 1 < h.capacity) :
    ∀ (n pos c : Nat), pos < h.capacity →
      ∀ p, p ∈ search_trace h str n pos c → p < h.capacity := by
  intro n
  induction n with
  | zero =>
    intro pos c hpos p hp
    simp only [search_trace, List.mem_singleton] at hp
    rw [hp]; exact hpos
  | succ n ih =>
    intro pos c hpos p hp
    unfold search_trace at hp
    rcases List.mem_cons.1 hp with rfl | hp
    · exact hpos
    · split at hp
      · simp at hp
      · split at hp
        · split at hp
          · rw [htable_step_ok h pos hcap] at hp
            have hlt : pos % (h.capacity - 1) < h.capacity - 1 := Nat.mod_lt _ (by omega)
            exact ih _ _ (by omega) p hp
          · exact ih _ _ (Nat.mod_lt _ (by omega)) p hp
        · simp at hp

/-- C19 (search never dereferences an empty slot) fails: the loop condition evaluates
`strcmp(h->keys[pos], str)` before it tests `h->keys[pos] != NULL`.  In the table holding "a"
in slot 6 and "h" in slot 0 (capacity 7, linear probing) the search for "o" compares the keys
of slots 6, 0 and 1, and slot 1 is empty: its NULL key is handed to `strcmp`. -/
theorem search_compares_empty_slot :
    Reachable 7 hashing_t.LINEAR_P table_ah ∧
      htable_search_trace table_ah [111] = [6, 0, 1] ∧
      table_ah.keys 6 = some [97] ∧ table_ah.keys 0 = some [104] ∧ table_ah.keys 1 = none ∧
      htable_search table_ah [111] = Except.error Fault.null_deref :=
  ⟨⟨[[97], [104]], rfl⟩, rfl, rfl, rfl, rfl, rfl⟩

/-! ## Linear probing rejects only a full table -/

/-- Under linear probing a reachable table with `num_keys < capacity` always takes a key
that is in no slot: the call returns 1 and `num_keys` grows by 1. -/
theorem linear_places_when_not_full (cap : Nat) (h : HTable) (k : Key)
    (hr : Reachable cap hashing_t.LINEAR_P h) (hcap : 2 ≤ cap) (hroom : h.num_keys < cap)
    (habs : ∀ i, i < cap → h.keys i ≠ some k) :
    ∃ t, htable_insert h k = Except.ok (t, 1) ∧ t.num_keys = h.num_keys + 1 ∧
      ∃ i, i < cap ∧ t.keys i = some k := by
  obtain ⟨hc, hm, _⟩ := reachable_fields cap hashing_t.LINEAR_P h hr
  have hinv := Inv_reachable cap hashing_t.LINEAR_P h hr
  subst hc
  obtain ⟨j, _, _, he⟩ := htable_insert_absent h k hinv (by omega) (Or.inl hm) habs hroom
  refine ⟨_, he, ?_, key_probe h k j, key_probe_lt h k j (by omega), ?_⟩
  · show (skipped h 0 j).num_keys + 1 = _
    rw [skipped_num_keys]
  · exact setAt_same _ _ _

/-- Under linear probing no call on a reachable table returns 0: a call whose probes all fail
has found every slot occupied, so `num_keys = capacity` and its first failed probe has already
faulted on the store `stats[num_keys]`. -/
theorem linear_never_returns_zero (cap : Nat) (h : HTable) (k : Key) (r : HTable × Nat)
    (hr : Reachable cap hashing_t.LINEAR_P h) (he : htable_insert h k = Except.ok r) :
    r.2 ≠ 0 := by
  obtain ⟨hc, hm, _⟩ := reachable_fields cap hashing_t.LINEAR_P h hr
  have hinv := Inv_reachable cap hashing_t.LINEAR_P h hr
  have hcap1 : 1 < h.capacity := htable_insert_ok_cap h k r he
  have hpos : 0 < h.capacity := by omega
  rcases htable_insert_cases h k hcap1 with ⟨hall, _⟩ | ⟨j, _, _, _, he2⟩ | ⟨j, _, _, _, he2⟩ |
    ⟨_, he4⟩
  · have hoth : ∀ e, e < h.capacity → other h k e := by
      intro e hlt
      obtain ⟨j, hj, hje⟩ := probe_cover h.capacity _ (htable_word_to_int k % h.capacity) e
        (eff_step_coprime h (htable_word_to_int k) hcap1 (Or.inl hm)) (Nat.mod_lt _ hpos) hlt
      have := hall j hj
      rw [← hje]
      exact this
    have hfull : h.capacity ≤ h.num_keys := by
      by_contra hlt
      obtain ⟨e, hlt2, hke⟩ := exists_empty h hinv (by omega)
      obtain ⟨k1, hk1, _⟩ := hoth e hlt2
      rw [hke] at hk1
      cases hk1
    have hfirst : h.keys (key_probe h k 0) ≠ some k := by
      obtain ⟨k1, hk1, hne⟩ := hall 0 hpos
      rw [hk1]
      intro hkk
      exact hne (Option.some.inj hkk)
    rw [htable_insert_no_room h k hcap1 hfull hfirst] at he
    cases he
  · rw [he2] at he
    cases he
    exact Nat.one_ne_zero
  · rw [he2] at he
    cases he
    exact Nat.succ_ne_zero _
  · rw [he4] at he
    cases he

/-- C20 (linear probing rejects only when truly full) fails on the full table: in the
reachable LINEAR_P table of capacity 3 that holds "a", "b" and "c" (`num_keys = capacity`),
`htable_insert` of the absent word "d" does not return 0: its first probe fails at slot 1 and
the store `stats[num_keys] = stats[3]` that follows is past the end of the array. -/
theorem linear_full_table_insert_faults :
    ∃ t, insert_all (htable_new 3 hashing_t.LINEAR_P) [[97], [98], [99]] = Except.ok t ∧
      t.capacity = 3 ∧ t.num_keys = 3 ∧ (∀ i, i < 3 → t.keys i ≠ some [100]) ∧
      t.keys (key_probe t [100] 0) = some [97] ∧
      htable_insert t [100] = Except.error Fault.out_of_bounds :=
  ⟨_, rfl, rfl, rfl, by decide, rfl, rfl⟩

/-! ## The collision log -/

theorem count_failed_stop (h : HTable) (k : Key) :
    ∀ (j n j0 : Nat), (∀ j1, j1 < j → other h k (key_probe h k (j0 + j1))) →
      ¬ other h k (key_probe h k (j0 + j)) → j < n → count_failed h k n j0 = j := by
  intro j
  induction j with
  | zero =>
    intro n j0 _ hstop hn
    obtain ⟨n1, rfl⟩ : ∃ n1, n = n1 + 1 := ⟨n - 1, by omega⟩
    rw [Nat.add_zero] at hstop
    rcases (not_other_iff h k _).1 hstop with hk | hk
    · simp [count_failed, hk]
    · simp [count_failed, hk]
  | succ j ih =>
    intro n j0 hfail hstop hn
    obtain ⟨n1, rfl⟩ : ∃ n1, n = n1 + 1 := ⟨n - 1, by omega⟩
    obtain ⟨k1, hk1, hne⟩ := hfail 0 (Nat.succ_pos j)
    rw [Nat.add_zero] at hk1
    have hrec := ih n1 (j0 + 1)
      (by
        intro j1 hj1
        have := hfail (j1 + 1) (by omega)
        have e : j0 + (j1 + 1) = j0 + 1 + j1 := by omega
        rw [e] at this
        exact this)
      (by
        have e : j0 + (j + 1) = j0 + 1 + j := by omega
        rw [e] at hstop
        exact hstop)
      (by omega)
    simp only [count_failed, hk1, hne, if_false]
    rw [hrec]
    omega

theorem failed_probes_eq (h : HTable) (k : Key) (j : Nat) (hj : j < h.capacity)
    (hfail : ∀ j1, j1 < j → other h k (key_probe h k j1))
    (hstop : ¬ other h k (key_probe h k j)) : failed_probes h k = j := by
  apply count_failed_stop h k j h.capacity 0
  · intro j1 hj1
    rw [Nat.zero_add]
    exact hfail j1 hj1
  · rw [Nat.zero_add]
    exact hstop
  · exact hj

theorem map_range_congr (f g : Nat → Nat) (n : Nat) (hfg : ∀ i, i < n → f i = g i) :
    (List.range n).map f = (List.range n).map g := by
  apply List.map_congr_left
  intro i hi
  exact hfg i (List.mem_range.1 hi)

/-- A call that returns leaves the `stats` entries below `num_keys` as they were, and does not
lower `num_keys`. -/
theorem htable_insert_log_kept (h : HTable) (k : Key) (r : HTable × Nat)
    (hr : htable_insert h k = Except.ok r) :
    h.num_keys ≤ r.1.num_keys ∧ ∀ i, i < h.num_keys → r.1.stats i = h.stats i := by
  have hcap := htable_insert_ok_cap h k r hr
  rcases htable_insert_cases h k hcap with ⟨_, he⟩ | ⟨j, _, _, _, he⟩ | ⟨j, _, _, _, he⟩ |
    ⟨hfull4, he4⟩
  · rw [he] at hr
    cases hr
    refine ⟨by rw [skipped_num_keys], ?_⟩
    intro i hi
    exact skipped_stats_ne h 0 _ i (by omega)
  · rw [he] at hr
    cases hr
    refine ⟨?_, ?_⟩
    · show h.num_keys ≤ (skipped h 0 j).num_keys + 1
      rw [skipped_num_keys]
      omega
    · intro i hi
      show setAt (skipped h 0 j).stats (skipped h 0 j).num_keys j i = _
      rw [skipped_num_keys, setAt_ne _ _ _ _ (by omega)]
      exact skipped_stats_ne h 0 j i (by omega)
  · rw [he] at hr
    cases hr
    refine ⟨by show h.num_keys ≤ (skipped h 0 j).num_keys; rw [skipped_num_keys], ?_⟩
    intro i hi
    exact skipped_stats_ne h 0 j i (by omega)
  · rw [he4] at hr
    cases hr

/-- One call extends the logged prefix of `stats` by its failed-probe count when it stores a
new key, and leaves it otherwise. -/
theorem htable_insert_log_step (h : HTable) (k : Key) (r : HTable × Nat)
    (hr : htable_insert h k = Except.ok r) :
    (List.range r.1.num_keys).map r.1.stats =
      (List.range h.num_keys).map h.stats ++
        (if r.1.num_keys = h.num_keys + 1 then [failed_probes h k] else []) := by
  have hcap := htable_insert_ok_cap h k r hr
  have hkept := htable_insert_log_kept h k r hr
  rcases htable_insert_cases h k hcap with ⟨_, he⟩ | ⟨j, hj, hb, hk, he⟩ | ⟨j, _, _, _, he⟩ |
    ⟨hfull4, he4⟩
  · rw [he] at hr
    cases hr
    have hn : (skipped h 0 h.capacity).num_keys = h.num_keys := skipped_num_keys h 0 _
    rw [if_neg (by rw [hn]; omega), List.append_nil, hn]
    exact map_range_congr _ _ _ (fun i hi => hkept.2 i hi)
  · rw [he] at hr
    cases hr
    have hn : (place (skipped h 0 j) (key_probe h k j) k j).num_keys = h.num_keys + 1 := by
      show (skipped h 0 j).num_keys + 1 = _
      rw [skipped_num_keys]
    have hfp : failed_probes h k = j :=
      failed_probes_eq h k j hj hb ((not_other_iff h k _).2 (Or.inl hk))
    have hat : (place (skipped h 0 j) (key_probe h k j) k j).stats h.num_keys = j := by
      show setAt (skipped h 0 j).stats (skipped h 0 j).num_keys j h.num_keys = j
      rw [skipped_num_keys, setAt_same]
    rw [if_pos hn, hn, List.range_succ, List.map_append, List.map_singleton, hat, hfp]
    congr 1
    exact map_range_congr _ _ _ (fun i hi => hkept.2 i hi)
  · rw [he] at hr
    cases hr
    have hn : (incr (skipped h 0 j) (key_probe h k j)).num_keys = h.num_keys :=
      skipped_num_keys h 0 _
    rw [if_neg (by rw [hn]; omega), List.append_nil, hn]
    exact map_range_congr _ _ _ (fun i hi => hkept.2 i hi)
  · rw [he4] at hr
    cases hr

theorem collision_log_cons (h : HTable) (k : Key) (ks : List Key) (r : HTable × Nat)
    (hr : htable_insert h k = Except.ok r) :
    collision_log h (k :: ks) =
      (if r.1.num_keys = h.num_keys + 1 then [failed_probes h k] else [])
        ++ collision_log r.1 ks := by
  show (match htable_insert h k with
    | Except.error _ => []
    | Except.ok r =>
      if r.1.num_keys = h.num_keys + 1 then failed_probes h k :: collision_log r.1 ks
      else collision_log r.1 ks) = _
  rw [hr]
  show (if r.1.num_keys = h.num_keys + 1 then failed_probes h k :: collision_log r.1 ks
      else collision_log r.1 ks) = _
  by_cases hn : r.1.num_keys = h.num_keys + 1
  · rw [if_pos hn, if_pos hn]
    rfl
  · rw [if_neg hn, if_neg hn]
    rfl

theorem collision_log_run (ks : List Key) :
    ∀ (h t : HTable), insert_all h ks = Except.ok t →
      (List.range t.num_keys).map t.stats =
        (List.range h.num_keys).map h.stats ++ collision_log h ks := by
  induction ks with
  | nil =>
    intro h t hr
    cases hr
    simp [collision_log]
  | cons k ks ih =>
    intro h t hr
    obtain ⟨r, hr1, hr2⟩ := insert_all_cons h k ks t hr
    rw [ih r.1 t hr2, htable_insert_log_step h k r hr1, collision_log_cons h k ks r hr1,
      List.append_assoc]

/-- C14 (chronological collision log): after any run of `htable_insert` calls on a fresh
table, re-insertions and table-full rejections included, the entries `stats[0..num_keys-1]`
are, in order, the failed-probe counts of the calls that stored a new key, whatever slot the
key went to; and a later call never changes an entry below `num_keys` nor lowers
`num_keys`. -/
theorem collision_log_chronological (cap : Nat) (m : hashing_t) (ks : List Key) (t : HTable)
    (hr : insert_all (htable_new cap m) ks = Except.ok t) :
    (List.range t.num_keys).map t.stats = collision_log (htable_new cap m) ks ∧
      (collision_log (htable_new cap m) ks).length = t.num_keys ∧
      (∀ i, i < t.num_keys → (collision_log (htable_new cap m) ks)[i]? = some (t.stats i)) ∧
      ∀ k r, htable_insert t k = Except.ok r →
        t.num_keys ≤ r.1.num_keys ∧ ∀ i, i < t.num_keys → r.1.stats i = t.stats i := by
  have hlog : (List.range t.num_keys).map t.stats = collision_log (htable_new cap m) ks := by
    have := collision_log_run ks (htable_new cap m) t hr
    simpa [htable_new] using this
  refine ⟨hlog, ?_, ?_, fun k r hk => htable_insert_log_kept t k r hk⟩
  · rw [← hlog]
    simp
  · intro i hi
    rw [← hlog]
    simp [hi]

/-- Witness of C14: "a" is stored at its first probe, then "h" after one failed probe: the log
is 0, 1. -/
theorem collision_log_chronological_witness :
    insert_all (htable_new 7 hashing_t.LINEAR_P) [[97], [104]] = Except.ok table_ah ∧
      collision_log (htable_new 7 hashing_t.LINEAR_P) [[97], [104]] = [0, 1] ∧
      ((List.range table_ah.num_keys).map table_ah.stats
          = collision_log (htable_new 7 hashing_t.LINEAR_P) [[97], [104]] ∧
        (collision_log (htable_new 7 hashing_t.LINEAR_P) [[97], [104]]).length
          = table_ah.num_keys ∧
        (∀ i, i < table_ah.num_keys →
          (collision_log (htable_new 7 hashing_t.LINEAR_P) [[97], [104]])[i]?
            = some (table_ah.stats i)) ∧
        ∀ k r, htable_insert table_ah k = Except.ok r →
          table_ah.num_keys ≤ r.1.num_keys ∧
            ∀ i, i < table_ah.num_keys → r.1.stats i = table_ah.stats i) :=
  ⟨rfl, rfl,
    collision_log_chronological 7 hashing_t.LINEAR_P [[97], [104]] table_ah rfl⟩

/-! ## The round trip under linear probing -/

theorem Tracks_new (cap : Nat) (m : hashing_t) : Tracks (htable_new cap m) [] := by
  refine ⟨?_, ?_, rfl⟩
  · intro k
    constructor
    · intro hk
      cases hk
    · rintro ⟨i, _, hi⟩
      cases hi
  · intro i k _ hi
    cases hi

/-- A key that is in some slot is met by its probe sequence behind failed probes only. -/
theorem present_path (h : HTable) (str : Key) (p : Nat) (hinv : Inv h)
    (hp : p < h.capacity) (hk : h.keys p = some str) :
    ∃ j, j < h.capacity ∧ key_probe h str j = p ∧
      ∀ j1, j1 < j → other h str (key_probe h str j1) := by
  obtain ⟨j0, hj0, hp0, hocc⟩ := hinv.path p str hp hk
  have hp0k : key_probe h str j0 = p := hp0
  rcases first_stop (fun j => other h str (key_probe h str j)) (j0 + 1) with
    hall | ⟨j, hj, hn, hb⟩
  · obtain ⟨k1, hk1, hne⟩ := hall j0 (by omega)
    rw [hp0k, hk] at hk1
    exact absurd (Option.some.inj hk1).symm hne
  · have hjc : j < h.capacity := by omega
    rcases (not_other_iff h str _).1 hn with he | hf
    · rcases Nat.lt_or_ge j j0 with hlt | hge
      · exact absurd he (hocc j hlt)
      · have hjj : j = j0 := by omega
        rw [hjj, hp0k, hk] at he
        cases he
    · have hpj : key_probe h str j = p :=
        hinv.uniq _ _ str (key_probe_lt h str j (by omega)) hp hf hk
      exact ⟨j, hjc, hpj, hb⟩

/-- A key that is in some slot is found by the call on a table with `num_keys < capacity`:
the found outcome. -/
theorem htable_insert_present (h : HTable) (str : Key) (p : Nat) (hinv : Inv h)
    (hcap : 1 < h.capacity) (hp : p < h.capacity) (hk : h.keys p = some str)
    (hroom : h.num_keys < h.capacity) :
    ∃ j, j < h.capacity ∧ key_probe h str j = p ∧
      (∀ j1, j1 < j → other h str (key_probe h str j1)) ∧
      htable_insert h str = Except.ok (incr (skipped h 0 j) p, h.frequencies p + 1) := by
  obtain ⟨j, hj, hpj, hb⟩ := present_path h str p hinv hp hk
  have hf : h.keys (key_probe h str j) = some str := by rw [hpj]; exact hk
  have he := htable_insert_found h str j hcap hj hb hf (Or.inr hroom)
  rw [hpj] at he
  exact ⟨j, hj, hpj, hb, he⟩

theorem Tracks_insert (h : HTable) (done : List Key) (k : Key) (hinv : Inv h)
    (htr : Tracks h done) (hcap : 1 < h.capacity)
    (hmode : h.method = hashing_t.LINEAR_P ∨ Nat.Prime h.capacity)
    (hroom : h.num_keys < h.capacity) :
    ∃ r, htable_insert h k = Except.ok r ∧ Tracks r.1 (done ++ [k]) := by
  obtain ⟨hK, hF, hN⟩ := htr
  by_cases hmem : k ∈ done
  · obtain ⟨p, hp, hkp⟩ := (hK k).1 hmem
    obtain ⟨j, _, _, _, he⟩ := htable_insert_present h k p hinv hcap hp hkp hroom
    refine ⟨_, he, ?_, ?_, ?_⟩
    · intro k1
      show k1 ∈ done ++ [k] ↔ ∃ i, i < (skipped h 0 j).capacity ∧ (skipped h 0 j).keys i = some k1
      rw [skipped_capacity, skipped_keys, ← hK k1]
      simp only [List.mem_append, List.mem_singleton]
      constructor
      · rintro (h1 | h1)
        · exact h1
        · rw [h1]; exact hmem
      · exact fun h1 => Or.inl h1
    · intro i k1 hi hki
      have hi2 : i < h.capacity := by
        have : i < (skipped h 0 j).capacity := hi
        rw [skipped_capacity] at this
        exact this
      have hki2 : h.keys i = some k1 := by
        have : (skipped h 0 j).keys i = some k1 := hki
        rw [skipped_keys] at this
        exact this
      show setAt (skipped h 0 j).frequencies p ((skipped h 0 j).frequencies p + 1) i = _
      rw [skipped_frequencies, List.count_append]
      by_cases hip : i = p
      · subst hip
        rw [hkp] at hki2
        have hkk : k = k1 := Option.some.inj hki2
        subst hkk
        rw [setAt_same, hF i k hi2 hkp]
        simp
      · rw [setAt_ne _ _ _ _ hip, hF i k1 hi2 hki2]
        have hne : k1 ≠ k := by
          intro hkk
          rw [hkk] at hki2
          exact hip (hinv.uniq i p k hi2 hp hki2 hkp)
        simp [List.count_singleton, hne.symm]
    · show (skipped h 0 j).num_keys = _
      rw [skipped_num_keys, hN]
      congr 1
      ext x
      simp only [List.mem_toFinset, List.mem_append, List.mem_singleton]
      constructor
      · exact fun h1 => Or.inl h1
      · rintro (h1 | h1)
        · exact h1
        · rw [h1]; exact hmem
  · have habs : ∀ i, i < h.capacity → h.keys i ≠ some k := by
      intro i hi hki
      exact hmem ((hK k).2 ⟨i, hi, hki⟩)
    obtain ⟨j, hj, hke, he⟩ := htable_insert_absent h k hinv hcap hmode habs hroom
    have hpj : key_probe h k j < h.capacity := key_probe_lt h k j (by omega)
    refine ⟨_, he, ?_, ?_, ?_⟩
    · intro k1
      show k1 ∈ done ++ [k] ↔ ∃ i, i < (skipped h 0 j).capacity ∧
        setAt (skipped h 0 j).keys (key_probe h k j) (some k) i = some k1
      rw [skipped_capacity, skipped_keys]
      simp only [List.mem_append, List.mem_singleton]
      constructor
      · rintro (h1 | h1)
        · obtain ⟨i, hi, hki⟩ := (hK k1).1 h1
          refine ⟨i, hi, ?_⟩
          have hne : i ≠ key_probe h k j := by
            intro hie
            rw [hie, hke] at hki
            cases hki
          rw [setAt_ne _ _ _ _ hne]
          exact hki
        · rw [h1]
          exact ⟨key_probe h k j, hpj, setAt_same _ _ _⟩
      · rintro ⟨i, hi, hki⟩
        by_cases hie : i = key_probe h k j
        · rw [hie, setAt_same] at hki
          exact Or.inr (Option.some.inj hki).symm
        · rw [setAt_ne _ _ _ _ hie] at hki
          exact Or.inl ((hK k1).2 ⟨i, hi, hki⟩)
    · intro i k1 hi hki
      have hi2 : i < h.capacity := by
        have : i < (skipped h 0 j).capacity := hi
        rw [skipped_capacity] at this
        exact this
      have hki2 : setAt h.keys (key_probe h k j) (some k) i = some k1 := by
        have : setAt (skipped h 0 j).keys (key_probe h k j) (some k) i = some k1 := hki
        rw [skipped_keys] at this
        exact this
      show setAt (skipped h 0 j).frequencies (key_probe h k j)
        ((skipped h 0 j).frequencies (key_probe h k j) + 1) i = _
      rw [skipped_frequencies, List.count_append]
      by_cases hie : i = key_probe h k j
      · rw [hie, setAt_same] at hki2
        have hkk : k = k1 := Option.some.inj hki2
        subst hkk
        rw [hie, setAt_same, hinv.freq_zero _ hpj hke, List.count_eq_zero_of_not_mem hmem]
        simp
      · rw [setAt_ne _ _ _ _ hie] at hki2
        rw [setAt_ne _ _ _ _ hie, hF i k1 hi2 hki2]
        have hne : k1 ≠ k := by
          intro hkk
          rw [hkk] at hki2
          exact habs i hi2 hki2
        simp [List.count_singleton, hne.symm]
    · show (skipped h 0 j).num_keys + 1 = _
      rw [skipped_num_keys, hN]
      have hset : (done ++ [k]).toFinset = insert k done.toFinset := by
        ext x
        simp only [List.mem_toFinset, List.mem_append, List.mem_singleton, Finset.mem_insert]
        tauto
      rw [hset, Finset.card_insert_of_not_mem (by simpa using hmem)]

theorem Tracks_insert_all (ks : List Key) :
    ∀ (h : HTable) (done : List Key), Inv h → Tracks h done → 1 < h.capacity →
      (h.method = hashing_t.LINEAR_P ∨ Nat.Prime h.capacity) →
      (done ++ ks).toFinset.card < h.capacity →
      ∃ t, insert_all h ks = Except.ok t ∧ Inv t ∧ Tracks t (done ++ ks) := by
  induction ks with
  | nil =>
    intro h done hinv htr _ _ _
    exact ⟨h, rfl, hinv, by simpa using htr⟩
  | cons k ks ih =>
    intro h done hinv htr hcap hmode hcard
    have hroom : h.num_keys < h.capacity := by
      have hsub : done.toFinset ⊆ (done ++ k :: ks).toFinset := by
        intro x hx
        simp only [List.mem_toFinset] at hx
        simp only [List.mem_toFinset, List.mem_append, List.mem_cons]
        exact Or.inl hx
      have hle := Finset.card_le_card hsub
      rw [htr.2.2]
      omega
    obtain ⟨r, hr, htr2⟩ := Tracks_insert h done k hinv htr hcap hmode hroom
    obtain ⟨hc, hm⟩ := htable_insert_fields h k r hr
    have happ : done ++ [k] ++ ks = done ++ k :: ks := by simp
    obtain ⟨t, ht, hinvt, htrt⟩ := ih r.1 (done ++ [k]) (Inv_insert h k r hinv hr) htr2
      (by rw [hc]; exact hcap) (by rw [hc, hm]; exact hmode) (by rw [hc, happ]; exact hcard)
    refine ⟨t, ?_, hinvt, by rw [← happ]; exact htrt⟩
    show (match htable_insert h k with
      | Except.error e => Except.error e
      | Except.ok r => insert_all r.1 ks) = Except.ok t
    rw [hr]
    exact ht

/-- After `j` failed probes the linear search continues from the `j`-th position of the probe
sequence with `j` more collisions. -/
theorem search_loop_skip (h : HTable) (str : Key) (hm : h.method = hashing_t.LINEAR_P) :
    ∀ (j n pos c : Nat),
      (∀ j1, j1 < j → other h str (probe_seq h.capacity 1 pos j1)) →
      c + j ≤ h.capacity + 1 →
      search_loop h str (j + n) pos c =
        search_loop h str n (probe_seq h.capacity 1 pos j) (c + j) := by
  intro j
  induction j with
  | zero =>
    intro n pos c _ _
    simp [probe_seq]
  | succ j ih =>
    intro n pos c hfail hle
    obtain ⟨k, hk, hne⟩ := hfail 0 (Nat.succ_pos j)
    have hk0 : h.keys pos = some k := hk
    have hc : c ≤ h.capacity := by omega
    have hnd : ¬ h.method = hashing_t.DOUBLE_H := by rw [hm]; decide
    have e1 : j + 1 + n = (j + n) + 1 := by omega
    rw [e1, search_loop_succ h str (j + n) pos c]
    simp only [hk0, hne, hc, hnd, ne_eq, not_false_eq_true, and_self, if_true, if_false]
    have hfail2 : ∀ j1, j1 < j →
        other h str (probe_seq h.capacity 1 ((pos + 1) % h.capacity) j1) := by
      intro j1 hj1
      have := hfail (j1 + 1) (by omega)
      rw [← probe_seq_shift] at this
      exact this
    rw [ih n _ (c + 1) hfail2 (by omega), probe_seq_shift]
    congr 1
    omega

theorem search_loop_found (h : HTable) (str : Key) (n pos c : Nat)
    (hk : h.keys pos = some str) : search_loop h str n pos c = Except.ok (pos, c) := by
  cases n with
  | zero => simp [search_loop, hk]
  | succ n =>
    rw [search_loop_succ]
    simp [hk]

/-- A search that returns has compared occupied slots only. -/
theorem search_trace_occupied (h : HTable) (str : Key) :
    ∀ (n pos c : Nat) (r : Nat × Nat), search_loop h str n pos c = Except.ok r →
      ∀ q, q ∈ search_trace h str n pos c → h.keys q ≠ none := by
  intro n
  induction n with
  | zero =>
    intro pos c r hr q hq
    simp only [search_trace, List.mem_singleton] at hq
    subst hq
    intro hk
    simp [search_loop, hk] at hr
  | succ n ih =>
    intro pos c r hr q hq
    rw [search_loop_succ] at hr
    unfold search_trace at hq
    cases hk : h.keys pos with
    | none =>
      rw [hk] at hr
      cases hr
    | some k =>
      rw [hk] at hr hq
      rcases List.mem_cons.1 hq with rfl | hq
      · rw [hk]
        simp
      · simp only [] at hr hq
        by_cases hcond : k ≠ str ∧ c ≤ h.capacity
        · rw [if_pos hcond] at hr hq
          by_cases hd : h.method = hashing_t.DOUBLE_H
          · rw [if_pos hd] at hr hq
            cases hs : htable_step h pos with
            | error e =>
              rw [hs] at hq
              simp at hq
            | ok p =>
              rw [hs] at hr hq
              exact ih p (c + 1) r hr q hq
          · rw [if_neg hd] at hr hq
            exact ih _ (c + 1) r hr q hq
        · rw [if_neg hcond] at hq
          simp at hq

theorem htable_search_trace_occupied (h : HTable) (str : Key) (v : Nat)
    (hv : htable_search h str = Except.ok v) :
    ∀ q, q ∈ htable_search_trace h str → h.keys q ≠ none := by
  intro q hq
  unfold htable_search at hv
  unfold htable_search_trace at hq
  by_cases h0 : h.capacity = 0
  · rw [if_pos h0] at hq
    simp at hq
  · rw [if_neg h0] at hv hq
    simp only [] at hv hq
    split at hq
    · simp at hq
    · rename_i pos hstart
      rw [hstart] at hv
      simp only [] at hv
      cases hl : search_loop h str (h.capacity + 1) pos 0 with
      | error e =>
        rw [hl] at hv
        cases hv
      | ok r => exact search_trace_occupied h str _ pos 0 r hl q hq

theorem htable_search_trace_lt (h : HTable) (str : Key) (hcap : 1 < h.capacity) :
    ∀ q, q ∈ htable_search_trace h str → q < h.capacity := by
  intro q hq
  unfold htable_search_trace at hq
  have h0 : h.capacity ≠ 0 := by omega
  rw [if_neg h0] at hq
  simp only [] at hq
  split at hq
  · simp at hq
  · rename_i pos hstart
    have hpos : pos < h.capacity := by
      by_cases hd : h.method = hashing_t.DOUBLE_H
      · rw [if_pos hd, htable_step_ok h _ hcap] at hstart
        cases hstart
        have hlt : htable_word_to_int str % (h.capacity - 1) < h.capacity - 1 :=
          Nat.mod_lt _ (by omega)
        omega
      · rw [if_neg hd] at hstart
        cases hstart
        exact Nat.mod_lt _ (by omega)
    exact search_trace_lt h str hcap _ pos 0 hpos q hq

/-- Under linear probing the search for a key that is in some slot returns the frequency of
that slot. -/
theorem htable_search_linear (h : HTable) (k : Key) (p : Nat) (hinv : Inv h)
    (hm : h.method = hashing_t.LINEAR_P) (hcap : 1 < h.capacity) (hp : p < h.capacity)
    (hk : h.keys p = some k) : htable_search h k = Except.ok (h.frequencies p) := by
  obtain ⟨j, hj, hpj, hfail⟩ := present_path h k p hinv hp hk
  have hkp : ∀ j1, key_probe h k j1 = probe_seq h.capacity 1 (htable_word_to_int k % h.capacity) j1 := by
    intro j1
    unfold key_probe
    rw [hm]
    rfl
  have hfail2 : ∀ j1, j1 < j →
      other h k (probe_seq h.capacity 1 (htable_word_to_int k % h.capacity) j1) := by
    intro j1 hj1
    rw [← hkp]
    exact hfail j1 hj1
  have hskip := search_loop_skip h k hm j (h.capacity + 1 - j)
    (htable_word_to_int k % h.capacity) 0 hfail2 (by omega)
  have e1 : j + (h.capacity + 1 - j) = h.capacity + 1 := by omega
  rw [e1, ← hkp, hpj, search_loop_found h k _ p _ hk] at hskip
  have h0 : h.capacity ≠ 0 := by omega
  have hnd : ¬ h.method = hashing_t.DOUBLE_H := by rw [hm]; decide
  have hne : ¬ 0 + j = h.capacity := by omega
  unfold htable_search
  simp only [h0, hnd, if_false, hskip, hne]

/-- C16 (linear-probing round trip): for LINEAR_P and every capacity of at least 2, a run of
`htable_insert` calls on a fresh table whose words number fewer distinct keys than the
capacity returns for every call, and in the table it leaves `htable_search` of every word of
the run returns the number of its occurrences; that search compares only keys of occupied
slots, at positions below the capacity. -/
theorem linear_round_trip (cap : Nat) (ks : List Key) (hcap : 2 ≤ cap)
    (hd : ks.toFinset.card < cap) :
    ∃ t, insert_all (htable_new cap hashing_t.LINEAR_P) ks = Except.ok t ∧
      ∀ k, k ∈ ks → htable_search t k = Except.ok (ks.count k) ∧
        ∀ q, q ∈ htable_search_trace t k → q < cap ∧ t.keys q ≠ none := by
  obtain ⟨t, ht, hinv, htr⟩ := Tracks_insert_all ks (htable_new cap hashing_t.LINEAR_P) []
    (Inv_new _ _) (Tracks_new _ _) (by show 1 < cap; omega) (Or.inl rfl)
    (by show ([] ++ ks).toFinset.card < cap; simpa using hd)
  rw [List.nil_append] at htr
  obtain ⟨hc, hm, _⟩ := insert_all_fields ks _ t ht
  have hc2 : t.capacity = cap := hc
  have hm2 : t.method = hashing_t.LINEAR_P := hm
  refine ⟨t, ht, ?_⟩
  intro k hk
  obtain ⟨p, hp, hkp⟩ := (htr.1 k).1 hk
  have hs : htable_search t k = Except.ok (ks.count k) := by
    rw [htable_search_linear t k p hinv hm2 (by omega) hp hkp, htr.2.1 p k hp hkp]
  refine ⟨hs, ?_⟩
  intro q hq
  refine ⟨?_, htable_search_trace_occupied t k _ hs q hq⟩
  rw [← hc2]
  exact htable_search_trace_lt t k (by omega) q hq

/-- Witness of C16: capacity 7 and the words "a", "b", "a", "c": three keys, and the
searches return 2, 1 and 1. -/
theorem linear_round_trip_witness :
    2 ≤ 7 ∧ [[97], [98], [97], [99]].toFinset.card < 7 ∧
      (∃ t, insert_all (htable_new 7 hashing_t.LINEAR_P) [[97], [98], [97], [99]] = Except.ok t ∧
        ∀ k, k ∈ [[97], [98], [97], [99]] →
          htable_search t k = Except.ok ([[97], [98], [97], [99]].count k) ∧
          ∀ q, q ∈ htable_search_trace t k → q < 7 ∧ t.keys q ≠ none) ∧
      ∃ t, insert_all (htable_new 7 hashing_t.LINEAR_P) [[97], [98], [97], [99]] = Except.ok t ∧
        t.num_keys = 3 ∧ htable_search t [97] = Except.ok 2 ∧
        htable_search t [98] = Except.ok 1 ∧ htable_search t [99] = Except.ok 1 :=
  ⟨by decide, by decide,
    linear_round_trip 7 [[97], [98], [97], [99]] (by decide) (by decide),
    _, rfl, rfl, rfl, rfl, rfl⟩

end Htable
